import Mathlib

/-!
Verification development for the Stoke_Pridictor indicator/signal pipeline.

The Python sources embedded here:
  * `Technical Analysis/indicators_all.py` — indicator engine
   (moving_average, exponential_moving_average, rsi, stochastic, williams_r,
   cci, atr, roc, save_indicators);
  * `Technical Analysis/daily_indicators.py` — calc_ema, calc_macd;
  * `Technical_Analysis/Indicators_live_Data.py` — count_signals,
   estimate_prediction, process_stock (the live signal aggregator and
   prediction heuristic).

Conventions of the shallow embedding:
  * Python floats are modelled as exact rationals;
   `round(x, d)` is modelled as rounding to the nearest multiple of 10^(-d).
  * Dates are modelled by the zero-based index of the row in the
   chronologically ordered series (the `dates` list of the source is a
   parallel array, so the index determines the date).
  * A Python list access `xs[i]` inside a loop whose bounds keep `i` in
   range is modelled by `List.getD xs i 0`.
  * Code that can raise returns an `Option`, `none` marking the raise.
-/

/-- BUY/SELL/NEUTRAL signal labels, as stored in the `signal` column. -/
inductive Sig
  | BUY
  | SELL
  | NEUTRAL
deriving DecidableEq

/-- One row of the `indicators` table as produced by the engine:
(symbol, trade_date, indicator_name, value, signal, period, calculated_at).
`dateIdx` is the positional date, `computedAt` an abstract timestamp. -/
structure IndRow where
  symbol : String
  dateIdx : ℕ
  name : String
  value : ℚ
  signal : Sig
  period : Option ℕ
  computedAt : ℕ
deriving DecidableEq

/-- Default row used with `List.getD` in positionally stated theorems. -/
def dRow : IndRow := ⟨"", 0, "", 0, Sig.NEUTRAL, none, 0⟩

/-- Python `round(x, d)`: round to the nearest multiple of `10 ^ (-d)`. -/
def roundTo (d : ℕ) (x : ℚ) : ℚ := ((round (x * 10 ^ d) : ℤ) : ℚ) / 10 ^ d

/-- In-range Python list access `xs[i]` (the loops of the source keep the
index in bounds, so the default is never read). -/
def pyGet (xs : List ℚ) (i : ℕ) : ℚ := xs.getD i 0

/-- Python slice `xs[a:b]` for `0 ≤ a ≤ b`. -/
def pySlice (xs : List ℚ) (a b : ℕ) : List ℚ := (xs.take b).drop a

/-- Python `range(a, n)` as a list. -/
def pyRange (a n : ℕ) : List ℕ := List.range' a (n - a)

/-- Python `max` over a nonempty list (callers never pass `[]`). -/
def listMax : List ℚ → ℚ
  | [] => 0
  | x :: xs => xs.foldl max x

/-- Python `min` over a nonempty list (callers never pass `[]`). -/
def listMin : List ℚ → ℚ
  | [] => 0
  | x :: xs => xs.foldl min x

/-- A `for i in idxs` loop that threads an accumulator: each iteration first
updates the accumulator with `upd`, then appends the row `emit` built from
the updated accumulator.  Stateless loops use `σ := Unit`. -/
def loopEmit {σ α : Type} (upd : σ → ℕ → σ) (emit : σ → ℕ → α) : σ → List ℕ → List α
  | _, [] => []
  | s, i :: is =>
    let t := upd s i
    emit t i :: loopEmit upd emit t is

/-- The signal rule shared by SMA and EMA:
BUY if close above the average, SELL if below, else NEUTRAL. -/
def cmpSig (c avg : ℚ) : Sig :=
  if avg < c then Sig.BUY else if c < avg then Sig.SELL else Sig.NEUTRAL

/-- indicators_all.moving_average: SMA over a trailing window of `period`
closes, one row per index from `period - 1` on. -/
def moving_average (close : List ℚ) (symbol : String) (period : ℕ) (now : ℕ) :
    List IndRow :=
  (pyRange (period - 1) close.length).map fun i =>
    let avg := (pySlice close (i + 1 - period) (i + 1)).sum / period
    ⟨symbol, i, "MA_" ++ toString period, roundTo 6 avg,
      cmpSig (pyGet close i) avg, some period, now⟩

/-- indicators_all.exponential_moving_average: EMA seeded with the SMA of the
first `period` closes, then `ema = (close - ema) * mult + ema`; the seed row
is emitted unchanged at index `period - 1`. -/
def exponential_moving_average (close : List ℚ) (symbol : String) (period : ℕ)
    (now : ℕ) : List IndRow :=
  let multiplier : ℚ := 2 / ((period : ℚ) + 1)
  loopEmit
    (fun ema i =>
      if (period : ℤ) - 1 < (i : ℤ) then (pyGet close i - ema) * multiplier + ema
      else ema)
    (fun ema i =>
      ⟨symbol, i, "EMA_" ++ toString period, roundTo 6 ema,
        cmpSig (pyGet close i) ema, some period, now⟩)
    ((close.take period).sum / period)
    (pyRange (period - 1) close.length)

/-- daily_indicators.calc_ema: same computation as
`exponential_moving_average` (the two indicator modules duplicate it). -/
def calc_ema (close : List ℚ) (symbol : String) (period : ℕ) (now : ℕ) :
    List IndRow :=
  let mult : ℚ := 2 / ((period : ℚ) + 1)
  loopEmit
    (fun ema i =>
      if (period : ℤ) - 1 < (i : ℤ) then (pyGet close i - ema) * mult + ema
      else ema)
    (fun ema i =>
      ⟨symbol, i, "EMA_" ++ toString period, roundTo 6 ema,
        cmpSig (pyGet close i) ema, some period, now⟩)
    ((close.take period).sum / period)
    (pyRange (period - 1) close.length)

/-- Day-over-day gains of a close series: `max(close[i] - close[i-1], 0)`
for `i` in `1 .. len-1`. -/
def rsiGains (close : List ℚ) : List ℚ :=
  (List.range (close.length - 1)).map fun j =>
    max (pyGet close (j + 1) - pyGet close j) 0

/-- Day-over-day losses of a close series: `max(close[i-1] - close[i], 0)`. -/
def rsiLosses (close : List ℚ) : List ℚ :=
  (List.range (close.length - 1)).map fun j =>
    max (pyGet close j - pyGet close (j + 1)) 0

/-- Wilder seed of the RSI: simple means of the first `period` gains and
losses. -/
def rsiSeed (close : List ℚ) (period : ℕ) : ℚ × ℚ :=
  (((rsiGains close).take period).sum / period,
   ((rsiLosses close).take period).sum / period)

/-- One Wilder-smoothing step of the RSI loop: at loop index `i` the source
sets `idx = i - 1` and re-smooths only when `idx > period - 1`. -/
def rsiUpd (close : List ℚ) (period : ℕ) (gl : ℚ × ℚ) (i : ℕ) : ℚ × ℚ :=
  let idx := i - 1
  if (period : ℤ) - 1 < (idx : ℤ) then
    ((gl.1 * ((period : ℚ) - 1) + pyGet (rsiGains close) idx) / period,
     (gl.2 * ((period : ℚ) - 1) + pyGet (rsiLosses close) idx) / period)
  else gl

/-- The RSI value emitted from the smoothed averages: `100` when the average
loss is zero, else `100 - 100 / (1 + avgGain / avgLoss)`. -/
def rsiVal (gl : ℚ × ℚ) : ℚ :=
  if gl.2 = 0 then 100 else 100 - 100 / (1 + gl.1 / gl.2)

/-- indicators_all.rsi: Wilder-smoothed RSI, one row per index from `period`
on. -/
def rsi (close : List ℚ) (symbol : String) (period : ℕ) (now : ℕ) :
    List IndRow :=
  loopEmit (rsiUpd close period)
    (fun gl i =>
      let v := rsiVal gl
      let effect : Sig :=
        if v < 30 then Sig.BUY else if 70 < v then Sig.SELL else Sig.NEUTRAL
      ⟨symbol, i, "RSI", roundTo 6 v, effect, some period, now⟩)
    (rsiSeed close period)
    (pyRange period close.length)

/-- indicators_all.stochastic: %K over the trailing window, `50` when the
window is flat (`highest == lowest`). -/
def stochastic (close high low : List ℚ) (symbol : String) (period : ℕ)
    (now : ℕ) : List IndRow :=
  (pyRange (period - 1) close.length).map fun i =>
    let highest := listMax (pySlice high (i + 1 - period) (i + 1))
    let lowest := listMin (pySlice low (i + 1 - period) (i + 1))
    let k :=
      if highest ≠ lowest then (pyGet close i - lowest) / (highest - lowest) * 100
      else 50
    let effect : Sig :=
      if k < 20 then Sig.BUY else if 80 < k then Sig.SELL else Sig.NEUTRAL
    ⟨symbol, i, "Stochastic_K", roundTo 6 k, effect, some period, now⟩

/-- indicators_all.williams_r: %R over the trailing window, `-50` when the
window is flat. -/
def williams_r (close high low : List ℚ) (symbol : String) (period : ℕ)
    (now : ℕ) : List IndRow :=
  (pyRange (period - 1) close.length).map fun i =>
    let highest := listMax (pySlice high (i + 1 - period) (i + 1))
    let lowest := listMin (pySlice low (i + 1 - period) (i + 1))
    let wr :=
      if highest ≠ lowest then
        (highest - pyGet close i) / (highest - lowest) * (-100)
      else -50
    let effect : Sig :=
      if wr < -80 then Sig.BUY else if -20 < wr then Sig.SELL else Sig.NEUTRAL
    ⟨symbol, i, "Williams_R", roundTo 6 wr, effect, some period, now⟩

/-- Typical prices `(h + l + c) / 3` over zipped high/low/close. -/
def typicalPrices (close high low : List ℚ) : List ℚ :=
  (high.zip (low.zip close)).map fun hlc => (hlc.1 + hlc.2.1 + hlc.2.2) / 3

/-- indicators_all.cci: commodity channel index, `0` when the mean absolute
deviation of the typical price over the window is zero. -/
def windowSMA (w : List ℚ) : ℚ := w.sum / w.length

/-- Mean absolute deviation of a window around its simple mean
(`mean_dev` of the cci source). -/
def windowMeanDev (w : List ℚ) : ℚ :=
  (w.map fun v => |v - windowSMA w|).sum / w.length

def cci (close high low : List ℚ) (symbol : String) (period : ℕ) (now : ℕ) :
    List IndRow :=
  (pyRange (period - 1) (typicalPrices close high low).length).map fun i =>
    let tp := typicalPrices close high low
    let window := pySlice tp (i + 1 - period) (i + 1)
    let sma := windowSMA window
    let mean_dev := windowMeanDev window
    let val :=
      if mean_dev ≠ 0 then (pyGet tp i - sma) / ((15 / 1000 : ℚ) * mean_dev)
      else 0
    let effect : Sig :=
      if val < -100 then Sig.BUY else if 100 < val then Sig.SELL else Sig.NEUTRAL
    ⟨symbol, i, "CCI", roundTo 6 val, effect, some period, now⟩

/-- True ranges of indicators_all.atr: built only when `high`/`low` are
nonempty (the source reads `high[0] - low[0]` unconditionally). -/
def trueRanges (close high low : List ℚ) (h0 l0 : ℚ) : List ℚ :=
  (h0 - l0) :: (pyRange 1 close.length).map fun i =>
    max (pyGet high i - pyGet low i)
      (max |pyGet high i - pyGet close (i - 1)| |pyGet low i - pyGet close (i - 1)|)

/-- indicators_all.atr: Wilder-smoothed average true range.  The source
accesses `high[0]` and `low[0]` before any emptiness check, so an empty
input raises `IndexError`, modelled by `none`. -/
def atr (close high low : List ℚ) (symbol : String) (period : ℕ) (now : ℕ) :
    Option (List IndRow) :=
  match high, low with
  | h0 :: _, l0 :: _ =>
    let tr := trueRanges close high low h0 l0
    some (loopEmit
      (fun a i =>
        if (period : ℤ) - 1 < (i : ℤ) then
          (a * ((period : ℚ) - 1) + pyGet tr i) / period
        else a)
      (fun a i => ⟨symbol, i, "ATR", roundTo 6 a, Sig.NEUTRAL, some period, now⟩)
      ((tr.take period).sum / period)
      (pyRange (period - 1) close.length))
  | _, _ => none

/-- indicators_all.roc: rate of change against the close `period` bars ago,
`0` when that close is zero (Python truthiness guard). -/
def roc (close : List ℚ) (symbol : String) (period : ℕ) (now : ℕ) :
    List IndRow :=
  (pyRange period close.length).map fun i =>
    let c0 := pyGet close (i - period)
    let val := if c0 ≠ 0 then (pyGet close i - c0) / c0 * 100 else 0
    let effect : Sig :=
      if 0 < val then Sig.BUY else if val < 0 then Sig.SELL else Sig.NEUTRAL
    ⟨symbol, i, "ROC", roundTo 6 val, effect, some period, now⟩

/-- The inner `ema_series` helper of daily_indicators.calc_macd: `None` for
the first `p - 1` slots, then the seeded EMA; for series shorter than `p`
the result still has length `p` (its tail garbage is filtered out later by
the `zip`/`None` handling, exactly as in the source). -/
def ema_series (data : List ℚ) (p : ℕ) : List (Option ℚ) :=
  let mult : ℚ := 2 / ((p : ℚ) + 1)
  let first := (data.take p).sum / p
  (List.replicate (p - 1) none ++ [some first]) ++
    loopEmit (fun e i => (pyGet data i - e) * mult + e) (fun e _ => some e)
      first (pyRange p data.length)

/-- The `valid_macd` list of calc_macd: the indices where both EMAs exist,
paired with the MACD line value `emaFast - emaSlow`. -/
def macdValid (close : List ℚ) (fast slow : ℕ) : List (ℕ × ℚ) :=
  let ema_fast := ema_series close fast
  let ema_slow := ema_series close slow
  let macd_line := (ema_fast.zip ema_slow).map fun fs =>
    match fs.1, fs.2 with
    | some f, some s => some (f - s)
    | _, _ => none
  macd_line.enum.filterMap fun iv => iv.2.map fun v => (iv.1, v)

/-- The MACD-line rows of calc_macd (period column absent: `None`). -/
def macdLineRows (vm : List (ℕ × ℚ)) (symbol : String) (now : ℕ) :
    List IndRow :=
  vm.map fun iv =>
    let effect : Sig :=
      if 0 < iv.2 then Sig.BUY else if iv.2 < 0 then Sig.SELL else Sig.NEUTRAL
    ⟨symbol, iv.1, "MACD", roundTo 6 iv.2, effect, none, now⟩

/-- One signal-line EMA step of calc_macd. -/
def macdSigUpd (macd_vals : List ℚ) (sp : ℕ) (e : ℚ) (j : ℕ) : ℚ :=
  if (sp : ℤ) - 1 < (j : ℤ) then
    (pyGet macd_vals j - e) * (2 / ((sp : ℚ) + 1)) + e
  else e

/-- Seed of the signal-line EMA: simple mean of the first `sp` MACD values. -/
def macdSigSeed (macd_vals : List ℚ) (sp : ℕ) : ℚ :=
  (macd_vals.take sp).sum / sp

/-- Signal label of the MACD Signal and Histogram rows, decided by the sign
of the histogram. -/
def macdHistSig (h : ℚ) : Sig :=
  if 0 < h then Sig.BUY else if h < 0 then Sig.SELL else Sig.NEUTRAL

/-- The (Signal, Histogram) row pairs emitted by calc_macd, one pair per
index from `sp - 1` on. -/
def macdSignalPairs (macd_vals : List ℚ) (macd_dates_idx : List ℕ)
    (symbol : String) (sp now : ℕ) : List (IndRow × IndRow) :=
  loopEmit (macdSigUpd macd_vals sp)
    (fun e j =>
      let i := macd_dates_idx.getD j 0
      let hist := pyGet macd_vals j - e
      let effect := macdHistSig hist
      (⟨symbol, i, "MACD_Signal", roundTo 6 e, effect, some sp, now⟩,
       ⟨symbol, i, "MACD_Histogram", roundTo 6 hist, effect, some sp, now⟩))
    (macdSigSeed macd_vals sp)
    (pyRange (sp - 1) macd_vals.length)

/-- daily_indicators.calc_macd: MACD line rows followed by the interleaved
Signal/Histogram rows (the latter only when at least `signal_period` MACD
values exist). -/
def calc_macd (close : List ℚ) (symbol : String)
    (fast slow signal_period now : ℕ) : List IndRow :=
  let vm := macdValid close fast slow
  let macd_vals := vm.map Prod.snd
  let macd_dates_idx := vm.map Prod.fst
  macdLineRows vm symbol now ++
    (if signal_period ≤ macd_vals.length then
      (macdSignalPairs macd_vals macd_dates_idx symbol signal_period now).flatMap
        fun pr => [pr.1, pr.2]
    else [])

/-- Modelled from the spec: the repository contains no CREATE TABLE schema,
so the unique key that `INSERT ... ON DUPLICATE KEY UPDATE` fires on is taken
from the spec — the identity key (symbol, date, indicatorName, period). -/
def rowKey (r : IndRow) : String × ℕ × String × Option ℕ :=
  (r.symbol, r.dateIdx, r.name, r.period)

/-- The `ON DUPLICATE KEY UPDATE value, signal, calculated_at` action of
save_indicators: overwrite exactly those three columns. -/
def owr (x r : IndRow) : IndRow :=
  { x with value := r.value, signal := r.signal, computedAt := r.computedAt }

/-- Pointwise action of the conflict clause: overwrite a stored row when its
identity key matches the incoming row, else keep it. -/
def updKey (r x : IndRow) : IndRow :=
  if rowKey x = rowKey r then owr x r else x

/-- Upsert of a single row into the stored table: overwrite the row with
the same identity key, else append. -/
def upsertRow (store : List IndRow) (r : IndRow) : List IndRow :=
  if store.any fun s => decide (rowKey s = rowKey r) then store.map (updKey r)
  else store ++ [r]

/-- indicators_all.save_indicators / daily_indicators.save_indicators:
bulk upsert of a batch, row by row in batch order. -/
def save_indicators (store : List IndRow) (batch : List IndRow) :
    List IndRow :=
  batch.foldl upsertRow store

/-- One row of `historical_prices` as the live module reads it; `none` in a
price field models a non-numeric value on which `float()` raises. -/
structure PriceRow where
  close_price : Option ℚ
  high_price : Option ℚ
  low_price : Option ℚ
deriving DecidableEq

/-- The latest stored state of one indicator (value may be NULL). -/
structure IndData where
  value : Option ℚ
  signal : Sig
deriving DecidableEq

/-- Indicators_live_Data.SIGNAL_INDICATORS. -/
def SIGNAL_INDICATORS : List String :=
  ["RSI", "Stochastic_K", "Williams_R", "CCI", "ROC", "MACD"]

/-- Indicators_live_Data.count_signals: one BUY/SELL vote per snapshot entry
whose name is in the fixed list, from that entry's own signal field.  The
snapshot dict is modelled as an association list (a NULL signal would read
as no vote, the same as NEUTRAL here). -/
def count_signals (indicator_dict : List (String × IndData)) : ℕ × ℕ :=
  indicator_dict.foldl
    (fun bs nd =>
      if nd.1 ∈ SIGNAL_INDICATORS then
        match nd.2.signal with
        | Sig.BUY => (bs.1 + 1, bs.2)
        | Sig.SELL => (bs.1, bs.2 + 1)
        | Sig.NEUTRAL => bs
      else bs)
    (0, 0)

/-- The `avg_move` of estimate_prediction: mean absolute day-over-day change
over the last `min(14, len - 1)` observations (closes are most-recent
first). -/
def avgMoveOf (close_prices : List ℚ) : ℚ :=
  let m := min 14 (close_prices.length - 1)
  (((List.range m).map fun i =>
    |pyGet close_prices i - pyGet close_prices (i + 1)|).sum) / (m : ℚ)

/-- Indicators_live_Data.estimate_prediction.  Returns
(predicted, direction, confidence); `none` in the first slot models the
Python `None` returned when fewer than 5 closes exist. -/
def estimate_prediction (close_prices : List ℚ) (buy_count sell_count : ℕ) :
    Option ℚ × Sig × ℚ :=
  if close_prices.length < 5 then (none, Sig.NEUTRAL, 0)
  else
    let current := pyGet close_prices 0
    let avg_move := avgMoveOf close_prices
    let total := buy_count + sell_count
    if total = 0 then (some current, Sig.NEUTRAL, 0)
    else if sell_count < buy_count then
      let confidence : ℚ := (buy_count : ℚ) / (total : ℚ) * 100
      (some (roundTo 4 (current + avg_move * (confidence / 100))),
        Sig.BUY, roundTo 2 confidence)
    else if buy_count < sell_count then
      let confidence : ℚ := (sell_count : ℚ) / (total : ℚ) * 100
      (some (roundTo 4 (current - avg_move * (confidence / 100))),
        Sig.SELL, roundTo 2 confidence)
    else (some (roundTo 4 current), Sig.NEUTRAL, roundTo 2 0)

/-- The list comprehension `[float(r["close_price"]) for r in price_rows]`:
raises (returns `none`) as soon as one row's close is non-numeric. -/
def closeFloats : List PriceRow → Option (List ℚ)
  | [] => some []
  | r :: rs =>
    match r.close_price, closeFloats rs with
    | some c, some cs => some (c :: cs)
    | _, _ => none

/-- Python `s.startswith(pre)`, character by character. -/
def pyStartsWith (s pre : String) : Bool :=
  pre.data.isPrefixOf s.data

/-- The `mas` list of Indicators_live_Data.process_stock: values of the
snapshot entries whose name starts with `MA_` and whose value is truthy
(non-NULL and nonzero). -/
def maValues (indicator_data : List (String × IndData)) : List ℚ :=
  indicator_data.filterMap fun nd =>
    if pyStartsWith nd.1 ("MA_") then
      match nd.2.value with
      | some v => if v ≠ 0 then some v else none
      | none => none
    else none

/-- The vote totals after the MA cross-check block of process_stock: the
count_signals votes plus at most one moving-average consensus vote. -/
def aggregate_votes (indicator_data : List (String × IndData))
    (close_prices : List ℚ) : ℕ × ℕ :=
  let bs := count_signals indicator_data
  let mas := maValues indicator_data
  if mas ≠ [] then
    let avg_ma := mas.sum / (mas.length : ℚ)
    if avg_ma < pyGet close_prices 0 then (bs.1 + 1, bs.2)
    else if pyGet close_prices 0 < avg_ma then (bs.1, bs.2 + 1)
    else bs
  else bs

/-- One row of the `predictions` table as written by save_prediction. -/
structure PredictionRecord where
  symbol : String
  model_type : String
  predicted_value : ℚ
  direction : Sig
  confidence_pct : ℚ
  buy_signals : ℕ
  sell_signals : ℕ
deriving DecidableEq

/-- Indicators_live_Data.process_stock: load prices (given here as the
already-fetched rows), convert closes, aggregate votes, estimate, save.
The returned list holds the predictions appended to the store (at most one);
`none` models the uncaught `ValueError` from a non-numeric close. -/
def process_stock (symbol : String) (price_rows : List PriceRow)
    (indicator_data : List (String × IndData)) :
    Option (List PredictionRecord) :=
  if price_rows.length = 0 then some []
  else
    match closeFloats price_rows with
    | none => none
    | some close_prices =>
      let votes := aggregate_votes indicator_data close_prices
      match estimate_prediction close_prices votes.1 votes.2 with
      | (none, _, _) => some []
      | (some predicted, direction, confidence) =>
        some [⟨symbol, "SIGNAL_ALGO", predicted, direction,
          confidence, votes.1, votes.2⟩]

/-- The `mas` list as claim C2 words it: the current value of every snapshot
entry in the moving-average family, with no truthiness filter. -/
def maValuesClaim (indicator_data : List (String × IndData)) : List ℚ :=
  indicator_data.filterMap fun nd =>
    if pyStartsWith nd.1 ("MA_") then nd.2.value else none

/-- Buy votes as claim C2 words them: one vote per snapshot entry whose name
is in the fixed subset and whose own signal field is BUY. -/
def buyVotesClaim (indicator_data : List (String × IndData)) : ℕ :=
  indicator_data.countP fun nd =>
    decide (nd.1 ∈ SIGNAL_INDICATORS ∧ nd.2.signal = Sig.BUY)

/-- Sell votes as claim C2 words them. -/
def sellVotesClaim (indicator_data : List (String × IndData)) : ℕ :=
  indicator_data.countP fun nd =>
    decide (nd.1 ∈ SIGNAL_INDICATORS ∧ nd.2.signal = Sig.SELL)

/-- The aggregated votes exactly as claim C2 states them: fixed-subset votes
plus a consensus vote against the average of the `maValuesClaim` list. -/
def aggregateVotesClaim (indicator_data : List (String × IndData))
    (close_prices : List ℚ) : ℕ × ℕ :=
  let buy := buyVotesClaim indicator_data
  let sell := sellVotesClaim indicator_data
  let mas := maValuesClaim indicator_data
  if mas ≠ [] then
    let avg := mas.sum / (mas.length : ℚ)
    if avg < pyGet close_prices 0 then (buy + 1, sell)
    else if pyGet close_prices 0 < avg then (buy, sell + 1)
    else (buy, sell)
  else (buy, sell)

/-- The aggregated votes as amended: the consensus averages only the
moving-average entries with a non-NULL, nonzero value. -/
def aggregateVotesAmended (indicator_data : List (String × IndData))
    (close_prices : List ℚ) : ℕ × ℕ :=
  let buy := buyVotesClaim indicator_data
  let sell := sellVotesClaim indicator_data
  let mas := indicator_data.filterMap fun nd =>
    if pyStartsWith nd.1 ("MA_") ∧ nd.2.value ≠ none ∧ nd.2.value ≠ some 0 then
      nd.2.value
    else none
  if mas ≠ [] then
    let avg := mas.sum / (mas.length : ℚ)
    if avg < pyGet close_prices 0 then (buy + 1, sell)
    else if pyGet close_prices 0 < avg then (buy, sell + 1)
    else (buy, sell)
  else (buy, sell)

/-! ### Generic lemmas about the embedding combinators -/

theorem loopEmit_length {σ α : Type} (upd : σ → ℕ → σ) (emit : σ → ℕ → α)
    (s : σ) (l : List ℕ) : (loopEmit upd emit s l).length = l.length := by
  induction l generalizing s with
  | nil => rfl
  | cons i is ih => simpa [loopEmit] using ih (upd s i)

theorem loopEmit_getD {σ α : Type} (upd : σ → ℕ → σ) (emit : σ → ℕ → α)
    (s : σ) (l : List ℕ) (d : α) (k : ℕ) (hk : k < l.length) :
    (loopEmit upd emit s l).getD k d =
      emit (List.foldl upd s (l.take (k + 1))) (l.getD k 0) := by
  induction l generalizing s k with
  | nil => simp at hk
  | cons i is ih =>
    cases k with
    | zero => simp [loopEmit]
    | succ k =>
      have hk2 : k < is.length := by simpa using hk
      simpa [loopEmit, List.take_cons] using ih (upd s i) k hk2

theorem loopEmit_forall {σ α : Type} (upd : σ → ℕ → σ) (emit : σ → ℕ → α)
    (Inv : σ → Prop) (P : α → Prop) (l : List ℕ) (s : σ) (hs : Inv s)
    (hupd : ∀ t i, Inv t → Inv (upd t i))
    (hemit : ∀ t i, Inv t → P (emit (upd t i) i)) :
    ∀ x ∈ loopEmit upd emit s l, P x := by
  induction l generalizing s with
  | nil => intro x hx; simp [loopEmit] at hx
  | cons i is ih =>
    intro x hx
    simp only [loopEmit, List.mem_cons] at hx
    rcases hx with hx | hx
    · exact hx ▸ hemit s i hs
    · exact ih (upd s i) (hupd s i hs) x hx

theorem pyRange_length (a n : ℕ) : (pyRange a n).length = n - a :=
  List.length_range' ..

theorem pyRange_eq_nil {a n : ℕ} (h : n ≤ a) : pyRange a n = [] := by
  unfold pyRange
  have : n - a = 0 := by omega
  simp [this]

theorem pyRange_eq_cons {a n : ℕ} (h : a < n) :
    pyRange a n = a :: pyRange (a + 1) n := by
  unfold pyRange
  have h1 : n - a = (n - (a + 1)) + 1 := by omega
  rw [h1, List.range'_succ]

theorem pyRange_getD {a n k : ℕ} (h : k < n - a) :
    (pyRange a n).getD k 0 = a + k := by
  have hlen : k < (pyRange a n).length := by simpa [pyRange_length] using h
  rw [List.getD_eq_getElem _ _ hlen]
  simp [pyRange, List.getElem_range']

theorem pyRange_mem {a n m : ℕ} : m ∈ pyRange a n ↔ a ≤ m ∧ m < n := by
  unfold pyRange
  rw [List.mem_range'_1]
  omega

theorem pySlice_zero (xs : List ℚ) (b : ℕ) : pySlice xs 0 b = xs.take b := by
  simp [pySlice]

/-! ### Lemmas about rounding -/

theorem roundTo_intCast (d : ℕ) (z : ℤ) : roundTo d ((z : ℚ)) = z := by
  unfold roundTo
  have h10 : ((10 : ℚ) ^ d) ≠ 0 := by positivity
  have : ((z : ℚ)) * 10 ^ d = ((z * 10 ^ d : ℤ) : ℚ) := by push_cast; ring
  rw [this, round_intCast]
  push_cast
  field_simp

theorem roundTo_mono (d : ℕ) {x y : ℚ} (h : x ≤ y) :
    roundTo d x ≤ roundTo d y := by
  unfold roundTo
  have h10 : (0 : ℚ) < 10 ^ d := by positivity
  have hm : x * 10 ^ d ≤ y * 10 ^ d := by
    exact mul_le_mul_of_nonneg_right h (le_of_lt h10)
  have hr : round (x * 10 ^ d) ≤ round (y * 10 ^ d) := by
    rw [round_eq, round_eq]
    exact Int.floor_mono (by linarith)
  have hc : ((round (x * 10 ^ d) : ℤ) : ℚ) ≤ ((round (y * 10 ^ d) : ℤ) : ℚ) := by
    exact_mod_cast hr
  exact div_le_div_of_nonneg_right hc (le_of_lt h10)

theorem abs_roundTo_sub (d : ℕ) (x : ℚ) :
    |roundTo d x - x| ≤ 1 / (2 * 10 ^ d) := by
  unfold roundTo
  have h10 : (0 : ℚ) < 10 ^ d := by positivity
  have h := abs_sub_round (x * 10 ^ d)
  rw [abs_sub_comm] at h
  have hrw : ((round (x * 10 ^ d) : ℤ) : ℚ) / 10 ^ d - x
      = (((round (x * 10 ^ d) : ℤ) : ℚ) - x * 10 ^ d) / 10 ^ d := by
    field_simp
    ring
  rw [hrw, abs_div, abs_of_pos h10,
    div_le_div_iff₀ h10 (by positivity : (0 : ℚ) < 2 * 10 ^ d)]
  have hm := mul_le_mul_of_nonneg_right h
    (by positivity : (0 : ℚ) ≤ 2 * 10 ^ d)
  have he : (1 / 2 : ℚ) * (2 * 10 ^ d) = 1 * 10 ^ d := by ring
  linarith

theorem roundTo_sub_bound (d : ℕ) (a b : ℚ) :
    |roundTo d (a - b) - (roundTo d a - roundTo d b)| ≤ 1 / 10 ^ d := by
  have h10 : (0 : ℚ) < 10 ^ d := by positivity
  have hab : (a - b) * 10 ^ d = a * 10 ^ d - b * 10 ^ d := by ring
  unfold roundTo
  rw [hab]
  have h1 := abs_sub_round (a * 10 ^ d - b * 10 ^ d)
  have h2 := abs_sub_round (a * 10 ^ d)
  have h3 := abs_sub_round (b * 10 ^ d)
  rcases abs_le.mp h1 with ⟨h1a, h1b⟩
  rcases abs_le.mp h2 with ⟨h2a, h2b⟩
  rcases abs_le.mp h3 with ⟨h3a, h3b⟩
  have key : ((round (a * 10 ^ d - b * 10 ^ d) : ℤ) : ℚ) / 10 ^ d
      - (((round (a * 10 ^ d) : ℤ) : ℚ) / 10 ^ d
        - ((round (b * 10 ^ d) : ℤ) : ℚ) / 10 ^ d)
      = ((round (a * 10 ^ d - b * 10 ^ d)
          - round (a * 10 ^ d) + round (b * 10 ^ d) : ℤ) : ℚ) / 10 ^ d := by
    push_cast
    field_simp
    ring
  rw [key]
  have habs : |((round (a * 10 ^ d - b * 10 ^ d)
      - round (a * 10 ^ d) + round (b * 10 ^ d) : ℤ) : ℚ)| ≤ 3 / 2 := by
    rw [abs_le]
    constructor <;> (push_cast; linarith)
  have hDint : |round (a * 10 ^ d - b * 10 ^ d)
      - round (a * 10 ^ d) + round (b * 10 ^ d)| ≤ 1 := by
    by_contra hcon
    push_neg at hcon
    have h2le : (2 : ℤ) ≤ |round (a * 10 ^ d - b * 10 ^ d)
        - round (a * 10 ^ d) + round (b * 10 ^ d)| := hcon
    have : (2 : ℚ) ≤ |((round (a * 10 ^ d - b * 10 ^ d)
        - round (a * 10 ^ d) + round (b * 10 ^ d) : ℤ) : ℚ)| := by
      rw [← Int.cast_abs]
      exact_mod_cast h2le
    linarith
  have hq : |((round (a * 10 ^ d - b * 10 ^ d)
      - round (a * 10 ^ d) + round (b * 10 ^ d) : ℤ) : ℚ)| ≤ 1 := by
    rw [← Int.cast_abs]
    exact_mod_cast hDint
  rw [abs_div, abs_of_pos h10]
  exact div_le_div_of_nonneg_right hq (le_of_lt h10)

/-! ### Helper lemmas about the indicator loops -/

theorem roundTo_fifty : roundTo 6 (50 : ℚ) = 50 := by
  have h := roundTo_intCast 6 50
  exact_mod_cast h

theorem roundTo_neg_fifty : roundTo 6 (-50 : ℚ) = -50 := by
  have h := roundTo_intCast 6 (-50)
  exact_mod_cast h

theorem roundTo_zero (d : ℕ) : roundTo d (0 : ℚ) = 0 := by
  have h := roundTo_intCast d 0
  exact_mod_cast h

theorem roundTo_hundred (d : ℕ) : roundTo d (100 : ℚ) = 100 := by
  have h := roundTo_intCast d 100
  exact_mod_cast h

theorem pyRange_cons_of_lt {a n : ℕ} (h : a < n) :
    pyRange a n = a :: pyRange (a + 1) n := pyRange_eq_cons h

/-- First window of the SMA loop: at `i = p - 1` the slice is the first `p`
closes. -/
theorem pySlice_first (xs : List ℚ) (p : ℕ) (hp : 1 ≤ p) :
    pySlice xs (p - 1 + 1 - p) (p - 1 + 1) = xs.take p := by
  have e1 : p - 1 + 1 - p = 0 := by omega
  have e2 : p - 1 + 1 = p := by omega
  rw [e1, e2, pySlice_zero]

/-- The EMA loop does not re-smooth at its first index `p - 1`. -/
theorem ema_first_no_update (p : ℕ) (hp : 1 ≤ p) :
    ¬ ((p : ℤ) - 1 < ((p - 1 : ℕ) : ℤ)) := by
  omega

/-- C5: for every period `p` and close series of length at least `p`, the
first emitted EMA(p) value — at zero-based index `p - 1` — equals the SMA(p)
over that same first window of `p` closes; this holds for both duplicated
implementations (`exponential_moving_average` and `calc_ema`), and the value
coincides with the first `moving_average` row. -/
theorem ema_seed_equals_sma_C5 (close : List ℚ) (sym : String) (p now : ℕ)
    (hp : 1 ≤ p) (hlen : p ≤ close.length) :
    ∃ v : ℚ, v = roundTo 6 ((close.take p).sum / (p : ℚ)) ∧
      ((exponential_moving_average close sym p now).head?).map IndRow.value
        = some v ∧
      ((calc_ema close sym p now).head?).map IndRow.value = some v ∧
      ((moving_average close sym p now).head?).map IndRow.value = some v ∧
      ((exponential_moving_average close sym p now).head?).map IndRow.dateIdx
        = some (p - 1) := by
  have hlt : p - 1 < close.length := by omega
  have hc : pyRange (p - 1) close.length = (p - 1) :: pyRange p close.length := by
    rw [pyRange_cons_of_lt hlt]
    have e : p - 1 + 1 = p := by omega
    rw [e]
  have hif := ema_first_no_update p hp
  refine ⟨roundTo 6 ((close.take p).sum / (p : ℚ)), rfl, ?_, ?_, ?_, ?_⟩
  · simp [exponential_moving_average, hc, loopEmit, hif]
  · simp [calc_ema, hc, loopEmit, hif]
  · simp [moving_average, hc, pySlice_first close p hp]
  · simp [exponential_moving_average, hc, loopEmit]

theorem typicalPrices_length (close high low : List ℚ)
    (hh : high.length = close.length) (hl : low.length = close.length) :
    (typicalPrices close high low).length = close.length := by
  simp [typicalPrices, List.length_zip, hh, hl]

theorem stoch_flat_mem (close high low : List ℚ) (sym : String) (p now i : ℕ)
    (hi1 : p - 1 ≤ i) (hi2 : i < close.length)
    (hflat : listMax (pySlice high (i + 1 - p) (i + 1))
      = listMin (pySlice low (i + 1 - p) (i + 1))) :
    (⟨sym, i, "Stochastic_K", 50, Sig.NEUTRAL, some p, now⟩ : IndRow)
      ∈ stochastic close high low sym p now := by
  unfold stochastic
  refine List.mem_map.mpr ⟨i, pyRange_mem.mpr ⟨hi1, hi2⟩, ?_⟩
  norm_num [hflat, roundTo_fifty]

theorem williams_flat_mem (close high low : List ℚ) (sym : String)
    (p now i : ℕ) (hi1 : p - 1 ≤ i) (hi2 : i < close.length)
    (hflat : listMax (pySlice high (i + 1 - p) (i + 1))
      = listMin (pySlice low (i + 1 - p) (i + 1))) :
    (⟨sym, i, "Williams_R", -50, Sig.NEUTRAL, some p, now⟩ : IndRow)
      ∈ williams_r close high low sym p now := by
  unfold williams_r
  refine List.mem_map.mpr ⟨i, pyRange_mem.mpr ⟨hi1, hi2⟩, ?_⟩
  norm_num [hflat, roundTo_neg_fifty]

theorem cci_flat_mem (close high low : List ℚ) (sym : String) (p now i : ℕ)
    (hh : high.length = close.length) (hl : low.length = close.length)
    (hi1 : p - 1 ≤ i) (hi2 : i < close.length)
    (hflat : windowMeanDev
      (pySlice (typicalPrices close high low) (i + 1 - p) (i + 1)) = 0) :
    (⟨sym, i, "CCI", 0, Sig.NEUTRAL, some p, now⟩ : IndRow)
      ∈ cci close high low sym p now := by
  unfold cci
  have hi2t : i < (typicalPrices close high low).length := by
    rw [typicalPrices_length close high low hh hl]
    exact hi2
  refine List.mem_map.mpr ⟨i, pyRange_mem.mpr ⟨hi1, hi2t⟩, ?_⟩
  norm_num [hflat, roundTo_zero]

theorem roc_flat_mem (close : List ℚ) (sym : String) (p now i : ℕ)
    (hi1 : p ≤ i) (hi2 : i < close.length)
    (hflat : pyGet close (i - p) = 0) :
    (⟨sym, i, "ROC", 0, Sig.NEUTRAL, some p, now⟩ : IndRow)
      ∈ roc close sym p now := by
  unfold roc
  refine List.mem_map.mpr ⟨i, pyRange_mem.mpr ⟨hi1, hi2⟩, ?_⟩
  norm_num [hflat, roundTo_zero]

/-- C8: degenerate arithmetic never raises — the guarded divisions resolve
inline to the flat-case values.  At any in-range index: a flat window
(highest high = lowest low) makes Stochastic %K emit 50 and Williams %R emit
-50; a zero mean absolute deviation makes CCI emit 0; a zero reference close
makes ROC emit 0.  All four emitted rows carry the NEUTRAL label their
thresholds assign to these values, and all four functions are total. -/
theorem degenerate_guards_C8 (close high low : List ℚ) (sym : String)
    (p now i : ℕ) (hh : high.length = close.length)
    (hl : low.length = close.length) (hi1 : p - 1 ≤ i)
    (hi2 : i < close.length) :
    (listMax (pySlice high (i + 1 - p) (i + 1))
        = listMin (pySlice low (i + 1 - p) (i + 1)) →
      (⟨sym, i, "Stochastic_K", 50, Sig.NEUTRAL, some p, now⟩ : IndRow)
        ∈ stochastic close high low sym p now ∧
      (⟨sym, i, "Williams_R", -50, Sig.NEUTRAL, some p, now⟩ : IndRow)
        ∈ williams_r close high low sym p now) ∧
    (windowMeanDev
        (pySlice (typicalPrices close high low) (i + 1 - p) (i + 1)) = 0 →
      (⟨sym, i, "CCI", 0, Sig.NEUTRAL, some p, now⟩ : IndRow)
        ∈ cci close high low sym p now) ∧
    (p ≤ i → pyGet close (i - p) = 0 →
      (⟨sym, i, "ROC", 0, Sig.NEUTRAL, some p, now⟩ : IndRow)
        ∈ roc close sym p now) := by
  refine ⟨fun hflat => ⟨?_, ?_⟩, fun hflat => ?_, fun hpi hflat => ?_⟩
  · exact stoch_flat_mem close high low sym p now i hi1 hi2 hflat
  · exact williams_flat_mem close high low sym p now i hi1 hi2 hflat
  · exact cci_flat_mem close high low sym p now i hh hl hi1 hi2 hflat
  · exact roc_flat_mem close sym p now i hpi hi2 hflat

/-- Witness for C8 on the all-zero 3-bar series with `p = 1`, `i = 1`:
all four flat premises hold and all four flat rows are emitted. -/
theorem degenerate_guards_C8_witness :
    (⟨"S", 1, "Stochastic_K", 50, Sig.NEUTRAL, some 1, 0⟩ : IndRow)
      ∈ stochastic [0, 0, 0] [0, 0, 0] [0, 0, 0] "S" 1 0 ∧
    (⟨"S", 1, "Williams_R", -50, Sig.NEUTRAL, some 1, 0⟩ : IndRow)
      ∈ williams_r [0, 0, 0] [0, 0, 0] [0, 0, 0] "S" 1 0 ∧
    (⟨"S", 1, "CCI", 0, Sig.NEUTRAL, some 1, 0⟩ : IndRow)
      ∈ cci [0, 0, 0] [0, 0, 0] [0, 0, 0] "S" 1 0 ∧
    (⟨"S", 1, "ROC", 0, Sig.NEUTRAL, some 1, 0⟩ : IndRow)
      ∈ roc [0, 0, 0] "S" 1 0 := by
  have h := degenerate_guards_C8 [0, 0, 0] [0, 0, 0] [0, 0, 0] "S" 1 0 1
    rfl rfl (by decide) (by decide)
  have hsw := h.1 (by norm_num [pySlice, listMax, listMin])
  refine ⟨hsw.1, hsw.2, h.2.1 ?_, h.2.2 (by decide) ?_⟩
  · norm_num [windowMeanDev, windowSMA, pySlice, typicalPrices]
  · norm_num [pyGet]

theorem map_pyRange_head {α : Type} (f : ℕ → α) (g : α → ℕ) (a n : ℕ)
    (hg : ∀ i, g (f i) = i) :
    (((pyRange a n).map f).head?).map g = if a < n then some a else none := by
  by_cases h : a < n
  · rw [pyRange_cons_of_lt h]
    simp [hg, h]
  · rw [pyRange_eq_nil (by omega)]
    simp [h]

theorem loopEmit_pyRange_head {σ α : Type} (upd : σ → ℕ → σ)
    (emit : σ → ℕ → α) (g : α → ℕ) (s : σ) (a n : ℕ)
    (hg : ∀ t i, g (emit t i) = i) :
    ((loopEmit upd emit s (pyRange a n)).head?).map g
      = if a < n then some a else none := by
  by_cases h : a < n
  · rw [pyRange_cons_of_lt h]
    simp [loopEmit, hg, h]
  · rw [pyRange_eq_nil (by omega)]
    simp [loopEmit, h]

theorem headIdx_if (o : Option IndRow) (a n w : ℕ) (hw : w - 1 = a)
    (hww : 1 ≤ w)
    (h : o.map IndRow.dateIdx = if a < n then some a else none) :
    o.map IndRow.dateIdx = if w ≤ n then some (w - 1) else none := by
  rw [h, hw]
  by_cases hc : a < n
  · rw [if_pos hc, if_pos (by omega)]
  · rw [if_neg hc, if_neg (by omega)]

/-- C3 counterexample: on the empty series `atr` raises (the source reads
`high[0] - low[0]` before any emptiness check), so the claim that every
indicator "emits zero values and does not raise" on every shorter series,
including the empty one, fails for ATR. -/
theorem atr_empty_raises_C3 :
    atr [] [] [] "S" 14 0 = none ∧ atr [] [] [] "S" 14 0 ≠ some [] := by
  exact ⟨rfl, by simp [atr]⟩

/-- C3 (amended): each embedded indicator with window `w` emits its first
row at zero-based index `w - 1` (`w = p` for MA/EMA/Stochastic/Williams/
CCI/ATR, `w = p + 1` for RSI/ROC) and emits exactly
`length - (w - 1)` rows, hence zero rows for any shorter series; the
short-series case returns empty rather than failing — except `atr`, which
requires a nonempty series (on the empty series it raises, see the
counterexample) and behaves the same on all nonempty ones. -/
theorem warmup_boundary_C3 (close high low : List ℚ) (sym : String)
    (p now : ℕ) (hp : 1 ≤ p) (hh : high.length = close.length)
    (hl : low.length = close.length) :
    (moving_average close sym p now).length = close.length - (p - 1) ∧
    (exponential_moving_average close sym p now).length
      = close.length - (p - 1) ∧
    (stochastic close high low sym p now).length = close.length - (p - 1) ∧
    (williams_r close high low sym p now).length = close.length - (p - 1) ∧
    (cci close high low sym p now).length = close.length - (p - 1) ∧
    (rsi close sym p now).length = close.length - p ∧
    (roc close sym p now).length = close.length - p ∧
    ((moving_average close sym p now).head?).map IndRow.dateIdx
      = (if p ≤ close.length then some (p - 1) else none) ∧
    ((exponential_moving_average close sym p now).head?).map IndRow.dateIdx
      = (if p ≤ close.length then some (p - 1) else none) ∧
    ((stochastic close high low sym p now).head?).map IndRow.dateIdx
      = (if p ≤ close.length then some (p - 1) else none) ∧
    ((williams_r close high low sym p now).head?).map IndRow.dateIdx
      = (if p ≤ close.length then some (p - 1) else none) ∧
    ((cci close high low sym p now).head?).map IndRow.dateIdx
      = (if p ≤ close.length then some (p - 1) else none) ∧
    ((rsi close sym p now).head?).map IndRow.dateIdx
      = (if p + 1 ≤ close.length then some p else none) ∧
    ((roc close sym p now).head?).map IndRow.dateIdx
      = (if p + 1 ≤ close.length then some p else none) ∧
    (high ≠ [] → ∃ rows, atr close high low sym p now = some rows ∧
      rows.length = close.length - (p - 1) ∧
      (rows.head?).map IndRow.dateIdx
        = (if p ≤ close.length then some (p - 1) else none)) := by
  have htp := typicalPrices_length close high low hh hl
  refine ⟨?_, ?_, ?_, ?_, ?_, ?_, ?_, ?_, ?_, ?_, ?_, ?_, ?_, ?_, ?_⟩
  · simp [moving_average, pyRange_length]
  · simp [exponential_moving_average, loopEmit_length, pyRange_length]
  · simp [stochastic, pyRange_length]
  · simp [williams_r, pyRange_length]
  · simp [cci, pyRange_length, htp]
  · simp [rsi, loopEmit_length, pyRange_length]
  · simp [roc, pyRange_length]
  · refine headIdx_if _ (p - 1) close.length p rfl hp ?_
    unfold moving_average
    exact map_pyRange_head _ _ _ _ fun i => rfl
  · refine headIdx_if _ (p - 1) close.length p rfl hp ?_
    unfold exponential_moving_average
    exact loopEmit_pyRange_head _ _ _ _ _ _ fun t i => rfl
  · refine headIdx_if _ (p - 1) close.length p rfl hp ?_
    unfold stochastic
    exact map_pyRange_head _ _ _ _ fun i => rfl
  · refine headIdx_if _ (p - 1) close.length p rfl hp ?_
    unfold williams_r
    exact map_pyRange_head _ _ _ _ fun i => rfl
  · refine headIdx_if _ (p - 1) close.length p rfl hp ?_
    unfold cci
    rw [htp]
    exact map_pyRange_head _ _ _ _ fun i => rfl
  · refine headIdx_if _ p close.length (p + 1) (by omega) (by omega) ?_
    unfold rsi
    exact loopEmit_pyRange_head _ _ _ _ _ _ fun t i => rfl
  · refine headIdx_if _ p close.length (p + 1) (by omega) (by omega) ?_
    unfold roc
    exact map_pyRange_head _ _ _ _ fun i => rfl
  · intro hne
    match high, hh, hne with
    | h0 :: hs, hh, _ =>
      match low, hl with
      | l0 :: ls, hl =>
        refine ⟨_, rfl, ?_, ?_⟩
        · simp [loopEmit_length, pyRange_length]
        · refine headIdx_if _ (p - 1) close.length p rfl hp ?_
          exact loopEmit_pyRange_head _ _ _ _ _ _ fun t i => rfl
      | [], hl =>
        exact absurd (hh ▸ hl) (by simp)

/-- Witness for C3 at `p = 2` over 3-bar series: the first rows sit at the
claimed warm-up indices and the row counts match. -/
theorem warmup_boundary_C3_witness :
    (moving_average [1, 2, 3] "S" 2 0).length = 3 - (2 - 1) ∧
    (exponential_moving_average [1, 2, 3] "S" 2 0).length = 3 - (2 - 1) ∧
    (stochastic [1, 2, 3] [2, 3, 4] [0, 1, 2] "S" 2 0).length = 3 - (2 - 1) ∧
    (williams_r [1, 2, 3] [2, 3, 4] [0, 1, 2] "S" 2 0).length = 3 - (2 - 1) ∧
    (cci [1, 2, 3] [2, 3, 4] [0, 1, 2] "S" 2 0).length = 3 - (2 - 1) ∧
    (rsi [1, 2, 3] "S" 2 0).length = 3 - 2 ∧
    (roc [1, 2, 3] "S" 2 0).length = 3 - 2 ∧
    ((moving_average [1, 2, 3] "S" 2 0).head?).map IndRow.dateIdx
      = (if 2 ≤ 3 then some (2 - 1) else none) ∧
    ((exponential_moving_average [1, 2, 3] "S" 2 0).head?).map IndRow.dateIdx
      = (if 2 ≤ 3 then some (2 - 1) else none) ∧
    ((stochastic [1, 2, 3] [2, 3, 4] [0, 1, 2] "S" 2 0).head?).map
        IndRow.dateIdx = (if 2 ≤ 3 then some (2 - 1) else none) ∧
    ((williams_r [1, 2, 3] [2, 3, 4] [0, 1, 2] "S" 2 0).head?).map
        IndRow.dateIdx = (if 2 ≤ 3 then some (2 - 1) else none) ∧
    ((cci [1, 2, 3] [2, 3, 4] [0, 1, 2] "S" 2 0).head?).map IndRow.dateIdx
      = (if 2 ≤ 3 then some (2 - 1) else none) ∧
    ((rsi [1, 2, 3] "S" 2 0).head?).map IndRow.dateIdx
      = (if 2 + 1 ≤ 3 then some 2 else none) ∧
    ((roc [1, 2, 3] "S" 2 0).head?).map IndRow.dateIdx
      = (if 2 + 1 ≤ 3 then some 2 else none) ∧
    (([2, 3, 4] : List ℚ) ≠ [] → ∃ rows,
      atr [1, 2, 3] [2, 3, 4] [0, 1, 2] "S" 2 0 = some rows ∧
      rows.length = 3 - (2 - 1) ∧
      (rows.head?).map IndRow.dateIdx
        = (if 2 ≤ 3 then some (2 - 1) else none)) := by
  have h := warmup_boundary_C3 [1, 2, 3] [2, 3, 4] [0, 1, 2] "S" 2 0
    (by decide) rfl rfl
  exact h

theorem pyGet_nonneg (xs : List ℚ) (h : ∀ x ∈ xs, 0 ≤ x) (i : ℕ) :
    0 ≤ pyGet xs i := by
  induction xs generalizing i with
  | nil => simp [pyGet]
  | cons a as ih =>
    cases i with
    | zero => simpa [pyGet] using h a (by simp)
    | succ n =>
      simpa [pyGet, List.getD_cons_succ] using
        ih (fun x hx => h x (by simp [hx])) n

theorem rsiGains_nonneg (close : List ℚ) : ∀ x ∈ rsiGains close, 0 ≤ x := by
  intro x hx
  rcases List.mem_map.mp hx with ⟨j, _, rfl⟩
  exact le_max_right _ _

theorem rsiLosses_nonneg (close : List ℚ) : ∀ x ∈ rsiLosses close, 0 ≤ x := by
  intro x hx
  rcases List.mem_map.mp hx with ⟨j, _, rfl⟩
  exact le_max_right _ _

theorem rsiSeed_nonneg (close : List ℚ) (p : ℕ) :
    0 ≤ (rsiSeed close p).1 ∧ 0 ≤ (rsiSeed close p).2 := by
  constructor <;>
  · apply div_nonneg _ (by positivity)
    apply List.sum_nonneg
    intro x hx
    first
    | exact rsiGains_nonneg close x (List.mem_of_mem_take hx)
    | exact rsiLosses_nonneg close x (List.mem_of_mem_take hx)

theorem rsiUpd_nonneg (close : List ℚ) (p : ℕ) (hp : 1 ≤ p) (gl : ℚ × ℚ)
    (i : ℕ) (h : 0 ≤ gl.1 ∧ 0 ≤ gl.2) :
    0 ≤ (rsiUpd close p gl i).1 ∧ 0 ≤ (rsiUpd close p gl i).2 := by
  unfold rsiUpd
  by_cases hc : (p : ℤ) - 1 < ((i - 1 : ℕ) : ℤ)
  · rw [if_pos hc]
    have hp1 : (0 : ℚ) ≤ (p : ℚ) - 1 := by
      have : (1 : ℚ) ≤ (p : ℚ) := by exact_mod_cast hp
      linarith
    constructor
    · exact div_nonneg
        (add_nonneg (mul_nonneg h.1 hp1)
          (pyGet_nonneg _ (rsiGains_nonneg close) _)) (by positivity)
    · exact div_nonneg
        (add_nonneg (mul_nonneg h.2 hp1)
          (pyGet_nonneg _ (rsiLosses_nonneg close) _)) (by positivity)
  · rw [if_neg hc]
    exact h

theorem rsiVal_bounds (gl : ℚ × ℚ) (h : 0 ≤ gl.1 ∧ 0 ≤ gl.2) :
    0 ≤ rsiVal gl ∧ rsiVal gl ≤ 100 := by
  unfold rsiVal
  by_cases hl : gl.2 = 0
  · rw [if_pos hl]
    norm_num
  · rw [if_neg hl]
    have hlp : 0 < gl.2 := lt_of_le_of_ne h.2 (Ne.symm hl)
    have hx : 0 ≤ gl.1 / gl.2 := div_nonneg h.1 (le_of_lt hlp)
    have hpos : (0 : ℚ) < 1 + gl.1 / gl.2 := by linarith
    have hub : 100 / (1 + gl.1 / gl.2) ≤ 100 / 1 :=
      div_le_div_of_nonneg_left (by norm_num) (by norm_num) (by linarith)
    have hlb : 0 < 100 / (1 + gl.1 / gl.2) := div_pos (by norm_num) hpos
    constructor <;> [linarith [hub]; linarith [hlb]]

theorem roundTo_in_unit_interval (v : ℚ) (h : 0 ≤ v ∧ v ≤ 100) :
    0 ≤ roundTo 6 v ∧ roundTo 6 v ≤ 100 := by
  constructor
  · have := roundTo_mono 6 h.1
    rwa [roundTo_zero] at this
  · have := roundTo_mono 6 h.2
    rwa [roundTo_hundred] at this

/-- C7: every emitted RSI value lies in [0, 100]; whenever the
Wilder-smoothed average loss at an emission point is zero the emitted value
is exactly 100.  (In particular on any strictly increasing close series of
length > p+1 no emitted RSI leaves [0, 100].) -/
theorem rsi_range_C7 (close : List ℚ) (sym : String) (p now : ℕ)
    (hp : 1 ≤ p) :
    (∀ r ∈ rsi close sym p now, 0 ≤ r.value ∧ r.value ≤ 100) ∧
    (∀ k, k < (rsi close sym p now).length →
      (List.foldl (rsiUpd close p) (rsiSeed close p)
        ((pyRange p close.length).take (k + 1))).2 = 0 →
      ((rsi close sym p now).getD k dRow).value = 100) := by
  constructor
  · intro r hr
    refine loopEmit_forall (rsiUpd close p) _
      (fun gl => 0 ≤ gl.1 ∧ 0 ≤ gl.2)
      (fun r => 0 ≤ r.value ∧ r.value ≤ 100) _ _
      (rsiSeed_nonneg close p) (fun t i ht => rsiUpd_nonneg close p hp t i ht)
      ?_ r hr
    intro t i ht
    exact roundTo_in_unit_interval _
      (rsiVal_bounds _ (rsiUpd_nonneg close p hp t i ht))
  · intro k hk hzero
    have hk2 : k < (pyRange p close.length).length := by
      simpa [rsi, loopEmit_length] using hk
    unfold rsi
    rw [loopEmit_getD _ _ _ _ _ _ hk2]
    simp only [rsiVal, hzero, if_pos]
    exact roundTo_hundred 6

/-- Witness for C7 at `p = 2`, `close = [1, 2, 3, 4]` (all gains, zero
losses): the first emitted row is in range and equals exactly 100. -/
theorem rsi_range_C7_witness :
    (0 ≤ ((rsi [1, 2, 3, 4] "S" 2 0).getD 0 dRow).value ∧
      ((rsi [1, 2, 3, 4] "S" 2 0).getD 0 dRow).value ≤ 100) ∧
    ((rsi [1, 2, 3, 4] "S" 2 0).getD 0 dRow).value = 100 := by
  have h := rsi_range_C7 [1, 2, 3, 4] "S" 2 0 (by decide)
  have hlen : 0 < (rsi [1, 2, 3, 4] "S" 2 0).length := by
    simp [rsi, loopEmit_length, pyRange_length]
  constructor
  · refine h.1 _ ?_
    rw [List.getD_eq_getElem _ _ hlen]
    exact List.getElem_mem hlen
  · refine h.2 0 hlen ?_
    norm_num [rsiUpd, rsiSeed, rsiLosses, rsiGains, pyGet, pyRange,
      List.range']

/-- The `macd_vals` list of calc_macd. -/
def macdVals (close : List ℚ) (fast slow : ℕ) : List ℚ :=
  (macdValid close fast slow).map Prod.snd

/-- The `macd_dates_idx` list of calc_macd. -/
def macdIdxs (close : List ℚ) (fast slow : ℕ) : List ℕ :=
  (macdValid close fast slow).map Prod.fst

/-- The Signal/Histogram row pairs calc_macd emits for a close series. -/
def macdPairsOf (close : List ℚ) (sym : String) (fast slow sp now : ℕ) :
    List (IndRow × IndRow) :=
  macdSignalPairs (macdVals close fast slow) (macdIdxs close fast slow)
    sym sp now

/-- The signal-line EMA state after the `k`-th emission of the calc_macd
signal loop. -/
def macdSigState (close : List ℚ) (fast slow sp k : ℕ) : ℚ :=
  List.foldl (macdSigUpd (macdVals close fast slow) sp)
    (macdSigSeed (macdVals close fast slow) sp)
    ((pyRange (sp - 1) (macdVals close fast slow).length).take (k + 1))

/-- The (unrounded) histogram value at the `k`-th signal emission:
MACD value minus signal-line EMA. -/
def macdHistAt (close : List ℚ) (fast slow sp k : ℕ) : ℚ :=
  pyGet (macdVals close fast slow) (sp - 1 + k)
    - macdSigState close fast slow sp k

/-- Witness for C5 at `p = 3`, `close = [1, 2, 3, 4]`. -/
theorem ema_seed_equals_sma_C5_witness :
    ∃ v : ℚ, v = roundTo 6 ((([1, 2, 3, 4] : List ℚ).take 3).sum / (3 : ℚ)) ∧
      ((exponential_moving_average [1, 2, 3, 4] "S" 3 0).head?).map IndRow.value
        = some v ∧
      ((calc_ema [1, 2, 3, 4] "S" 3 0).head?).map IndRow.value = some v ∧
      ((moving_average [1, 2, 3, 4] "S" 3 0).head?).map IndRow.value = some v ∧
      ((exponential_moving_average [1, 2, 3, 4] "S" 3 0).head?).map IndRow.dateIdx
        = some (3 - 1) :=
  ema_seed_equals_sma_C5 [1, 2, 3, 4] "S" 3 0 (by decide) (by decide)

/-- C6: at every date where calc_macd emits Signal/Histogram rows, the two
rows carry the same signal label, that label is the sign of the (unrounded)
histogram (BUY if > 0, SELL if < 0, else NEUTRAL), the MACD-line row of the
same position carries the same date, and the stored (6-decimal rounded)
histogram equals the stored line value minus the stored signal value to
within one unit in the 6th decimal. -/
theorem macd_hist_consistency_C6 (close : List ℚ) (sym : String)
    (fast slow sp now k : ℕ) (hsp : 1 ≤ sp)
    (hk : k < (macdPairsOf close sym fast slow sp now).length) :
    ((macdPairsOf close sym fast slow sp now).getD k (dRow, dRow)).1.signal
      = ((macdPairsOf close sym fast slow sp now).getD k (dRow, dRow)).2.signal ∧
    ((macdPairsOf close sym fast slow sp now).getD k (dRow, dRow)).1.signal
      = macdHistSig (macdHistAt close fast slow sp k) ∧
    ((macdPairsOf close sym fast slow sp now).getD k (dRow, dRow)).1.dateIdx
      = ((macdPairsOf close sym fast slow sp now).getD k (dRow, dRow)).2.dateIdx ∧
    ((macdLineRows (macdValid close fast slow) sym now).getD
        (sp - 1 + k) dRow).dateIdx
      = ((macdPairsOf close sym fast slow sp now).getD k (dRow, dRow)).1.dateIdx ∧
    |((macdPairsOf close sym fast slow sp now).getD k (dRow, dRow)).2.value
      - (((macdLineRows (macdValid close fast slow) sym now).getD
          (sp - 1 + k) dRow).value
        - ((macdPairsOf close sym fast slow sp now).getD k (dRow, dRow)).1.value)|
      ≤ 1 / 10 ^ 6 := by
  have hk2 : k < (pyRange (sp - 1) (macdVals close fast slow).length).length := by
    simpa [macdPairsOf, macdSignalPairs, loopEmit_length] using hk
  have hkv : k < (macdVals close fast slow).length - (sp - 1) := by
    simpa [pyRange_length] using hk2
  have hj : sp - 1 + k < (macdVals close fast slow).length := by omega
  have hjvm : sp - 1 + k < (macdValid close fast slow).length := by
    simpa [macdVals] using hj
  have hgd : (macdPairsOf close sym fast slow sp now).getD k (dRow, dRow)
      = (⟨sym, (macdIdxs close fast slow).getD (sp - 1 + k) 0, "MACD_Signal",
            roundTo 6 (macdSigState close fast slow sp k),
            macdHistSig (macdHistAt close fast slow sp k), some sp, now⟩,
         ⟨sym, (macdIdxs close fast slow).getD (sp - 1 + k) 0, "MACD_Histogram",
            roundTo 6 (macdHistAt close fast slow sp k),
            macdHistSig (macdHistAt close fast slow sp k), some sp, now⟩) := by
    unfold macdPairsOf macdSignalPairs
    rw [loopEmit_getD _ _ _ _ _ _ hk2, pyRange_getD hkv]
    rfl
  have hlinelen : sp - 1 + k
      < (macdLineRows (macdValid close fast slow) sym now).length := by
    simpa [macdLineRows] using hjvm
  have hline : (macdLineRows (macdValid close fast slow) sym now).getD
        (sp - 1 + k) dRow
      = (macdLineRows (macdValid close fast slow) sym now)[sp - 1 + k] :=
    List.getD_eq_getElem _ _ hlinelen
  have hlval : ((macdLineRows (macdValid close fast slow) sym now).getD
        (sp - 1 + k) dRow).value
      = roundTo 6 ((macdValid close fast slow)[sp - 1 + k].2) := by
    rw [hline]
    simp [macdLineRows]
  have hlidx : ((macdLineRows (macdValid close fast slow) sym now).getD
        (sp - 1 + k) dRow).dateIdx
      = (macdValid close fast slow)[sp - 1 + k].1 := by
    rw [hline]
    simp [macdLineRows]
  have hvv : pyGet (macdVals close fast slow) (sp - 1 + k)
      = (macdValid close fast slow)[sp - 1 + k].2 := by
    unfold pyGet
    rw [List.getD_eq_getElem _ _ hj]
    simp [macdVals]
  have hii : (macdIdxs close fast slow).getD (sp - 1 + k) 0
      = (macdValid close fast slow)[sp - 1 + k].1 := by
    have hjidx : sp - 1 + k < (macdIdxs close fast slow).length := by
      simpa [macdIdxs] using hjvm
    rw [List.getD_eq_getElem _ _ hjidx]
    simp [macdIdxs]
  refine ⟨by rw [hgd], by rw [hgd], by rw [hgd], ?_, ?_⟩
  · rw [hgd, hlidx]
    simpa using hii.symm
  · rw [hgd, hlval]
    simp only []
    have hhist : macdHistAt close fast slow sp k
        = (macdValid close fast slow)[sp - 1 + k].2
          - macdSigState close fast slow sp k := by
      rw [macdHistAt, hvv]
    rw [hhist]
    exact roundTo_sub_bound 6 _ _

/-- Witness for C6 with `fast = 1`, `slow = 2`, `sp = 2` on
`close = [1, 2, 3, 4]`, first signal emission. -/
theorem macd_hist_consistency_C6_witness :
    |((macdPairsOf [1, 2, 3, 4] "S" 1 2 2 0).getD 0 (dRow, dRow)).2.value
      - (((macdLineRows (macdValid [1, 2, 3, 4] 1 2) "S" 0).getD
          (2 - 1 + 0) dRow).value
        - ((macdPairsOf [1, 2, 3, 4] "S" 1 2 2 0).getD 0 (dRow, dRow)).1.value)|
      ≤ 1 / 10 ^ 6 := by
  refine (macd_hist_consistency_C6 [1, 2, 3, 4] "S" 1 2 2 0 0 (by decide)
    ?_).2.2.2.2
  simp [macdPairsOf, macdSignalPairs, loopEmit_length, pyRange_length,
    macdVals, macdValid, ema_series, loopEmit, pyRange, List.range']

/-! ### Upsert semantics (claim C4) -/

/-- Relation used in the upsert congruence argument: two stores are related
w.r.t. a pending batch `bs` when they agree positionally on identity keys,
and positions that differ carry a key some row of `bs` will overwrite. -/
def KeyRel (bs : List IndRow) (x y : IndRow) : Prop :=
  rowKey x = rowKey y ∧ (x = y ∨ ∃ rr ∈ bs, rowKey rr = rowKey x)

theorem rowKey_owr (x r : IndRow) : rowKey (owr x r) = rowKey x := rfl

theorem owr_owr (x r : IndRow) : owr (owr x r) r = owr x r := rfl

theorem owr_self (r : IndRow) : owr r r = r := rfl

theorem rowKey_updKey (r x : IndRow) : rowKey (updKey r x) = rowKey x := by
  unfold updKey
  by_cases h : rowKey x = rowKey r <;> simp [h, rowKey_owr]

theorem owr_congr {x y : IndRow} (r : IndRow) (h : rowKey x = rowKey y) :
    owr x r = owr y r := by
  cases x
  cases y
  simp only [rowKey, Prod.mk.injEq] at h
  obtain ⟨h1, h2, h3, h4⟩ := h
  simp [owr, h1, h2, h3, h4]

theorem present_iff_any (s : List IndRow) (k : String × ℕ × String × Option ℕ) :
    (s.any fun x => decide (rowKey x = k)) = true ↔ ∃ x ∈ s, rowKey x = k := by
  simp [List.any_eq_true]

theorem upsert_of_present {s : List IndRow} {r : IndRow}
    (h : ∃ x ∈ s, rowKey x = rowKey r) :
    upsertRow s r = s.map (updKey r) := by
  unfold upsertRow
  rw [if_pos ((present_iff_any s (rowKey r)).mpr h)]

theorem upsert_of_absent {s : List IndRow} {r : IndRow}
    (h : ¬ ∃ x ∈ s, rowKey x = rowKey r) :
    upsertRow s r = s ++ [r] := by
  unfold upsertRow
  rw [if_neg fun hc => h ((present_iff_any s (rowKey r)).mp hc)]

theorem present_upsert_self (s : List IndRow) (r : IndRow) :
    ∃ x ∈ upsertRow s r, rowKey x = rowKey r := by
  by_cases h : ∃ x ∈ s, rowKey x = rowKey r
  · obtain ⟨y, hy, hk⟩ := h
    rw [upsert_of_present ⟨y, hy, hk⟩]
    exact ⟨updKey r y, List.mem_map_of_mem _ hy, by rw [rowKey_updKey]; exact hk⟩
  · rw [upsert_of_absent h]
    exact ⟨r, by simp, rfl⟩

theorem present_upsert_mono (s : List IndRow) (r : IndRow)
    (k : String × ℕ × String × Option ℕ) (h : ∃ x ∈ s, rowKey x = k) :
    ∃ x ∈ upsertRow s r, rowKey x = k := by
  obtain ⟨y, hy, hk⟩ := h
  by_cases hp : ∃ x ∈ s, rowKey x = rowKey r
  · rw [upsert_of_present hp]
    exact ⟨updKey r y, List.mem_map_of_mem _ hy, by rw [rowKey_updKey]; exact hk⟩
  · rw [upsert_of_absent hp]
    exact ⟨y, by simp [hy], hk⟩

theorem present_save (b : List IndRow) : ∀ (s : List IndRow)
    (k : String × ℕ × String × Option ℕ), (∃ x ∈ s, rowKey x = k) →
    ∃ x ∈ save_indicators s b, rowKey x = k := by
  induction b with
  | nil => intro s k h; exact h
  | cons r bs ih => intro s k h; exact ih _ k (present_upsert_mono s r k h)

theorem filter_upsert_of_ne (s : List IndRow) (r : IndRow)
    (k : String × ℕ × String × Option ℕ) (hne : rowKey r ≠ k) :
    (upsertRow s r).filter (fun x => decide (rowKey x = k))
      = s.filter (fun x => decide (rowKey x = k)) := by
  by_cases hp : ∃ x ∈ s, rowKey x = rowKey r
  · rw [upsert_of_present hp, List.filter_map]
    have h1 : s.filter ((fun x => decide (rowKey x = k)) ∘ updKey r)
        = s.filter (fun x => decide (rowKey x = k)) := by
      apply List.filter_congr
      intro x _
      simp [Function.comp, rowKey_updKey]
    rw [h1]
    calc (s.filter fun x => decide (rowKey x = k)).map (updKey r)
        = (s.filter fun x => decide (rowKey x = k)).map id := by
          apply List.map_congr_left
          intro x hx
          have hxk : rowKey x = k := by
            have := (List.mem_filter.mp hx).2
            simpa using this
          unfold updKey
          rw [if_neg fun hc => hne (by rw [← hc]; exact hxk)]
          rfl
      _ = s.filter fun x => decide (rowKey x = k) := List.map_id _
  · rw [upsert_of_absent hp, List.filter_append]
    have h2 : ([r].filter fun x => decide (rowKey x = k)) = [] := by
      simp [hne]
    rw [h2, List.append_nil]

theorem filter_save_of_ne (bs : List IndRow) : ∀ (s : List IndRow)
    (k : String × ℕ × String × Option ℕ), (∀ r2 ∈ bs, rowKey r2 ≠ k) →
    (save_indicators s bs).filter (fun x => decide (rowKey x = k))
      = s.filter (fun x => decide (rowKey x = k)) := by
  induction bs with
  | nil => intro s k _; rfl
  | cons r rest ih =>
    intro s k h
    have h1 : save_indicators s (r :: rest)
        = save_indicators (upsertRow s r) rest := rfl
    rw [h1, ih _ k fun r2 h2 => h r2 (by simp [h2]),
      filter_upsert_of_ne s r k (h r (by simp))]

theorem upsert_key_fixed {s : List IndRow} {r x : IndRow}
    (hx : x ∈ upsertRow s r) (hk : rowKey x = rowKey r) : owr x r = x := by
  by_cases hp : ∃ y ∈ s, rowKey y = rowKey r
  · rw [upsert_of_present hp] at hx
    obtain ⟨y, hy, rfl⟩ := List.mem_map.mp hx
    have hyk : rowKey y = rowKey r := by
      rw [← rowKey_updKey r y]
      exact hk
    unfold updKey
    rw [if_pos hyk]
    exact owr_owr y r
  · rw [upsert_of_absent hp] at hx
    rcases List.mem_append.mp hx with hxs | hxr
    · exact absurd ⟨x, hxs, hk⟩ hp
    · have hxr2 : x = r := by simpa using hxr
      rw [hxr2]
      exact owr_self r

theorem save_key_fixed {bs s : List IndRow} {r x : IndRow}
    (hnb : ∀ r2 ∈ bs, rowKey r2 ≠ rowKey r)
    (hx : x ∈ save_indicators (upsertRow s r) bs)
    (hk : rowKey x = rowKey r) : owr x r = x := by
  have hmem : x ∈ (save_indicators (upsertRow s r) bs).filter
      (fun z => decide (rowKey z = rowKey r)) :=
    List.mem_filter.mpr ⟨hx, by simp [hk]⟩
  rw [filter_save_of_ne bs (upsertRow s r) (rowKey r) hnb] at hmem
  exact upsert_key_fixed (List.mem_filter.mp hmem).1 hk

theorem forall2_map_self {α : Type} (R : α → α → Prop) (f : α → α)
    (l : List α) (h : ∀ x ∈ l, R (f x) x) : List.Forall₂ R (l.map f) l := by
  induction l with
  | nil => simp
  | cons a as ih =>
    simp only [List.map_cons]
    exact List.Forall₂.cons (h a (by simp)) (ih fun x hx => h x (by simp [hx]))

theorem forall2_imp_mem {α β : Type} {R S : α → β → Prop} :
    ∀ {s : List α} {t : List β}, List.Forall₂ R s t →
    (∀ x y, x ∈ s → y ∈ t → R x y → S x y) → List.Forall₂ S s t := by
  intro s t h
  induction h with
  | nil => intro _; exact List.Forall₂.nil
  | @cons a b l1 l2 hab htail ih =>
    intro himp
    exact List.Forall₂.cons (himp a b (by simp) (by simp) hab)
      (ih fun x y hx hy hr => himp x y (by simp [hx]) (by simp [hy]) hr)

theorem forall2_map_both {α : Type} {R S : α → α → Prop} (f : α → α) :
    ∀ {s t : List α}, List.Forall₂ R s t →
    (∀ x y, R x y → S (f x) (f y)) → List.Forall₂ S (s.map f) (t.map f) := by
  intro s t h himp
  induction h with
  | nil => exact List.Forall₂.nil
  | @cons a b l1 l2 hab htail ih =>
    simp only [List.map_cons]
    exact List.Forall₂.cons (himp a b hab) ih

theorem forall2_append_single {α : Type} {R : α → α → Prop} {s t : List α}
    (h : List.Forall₂ R s t) {a b : α} (hab : R a b) :
    List.Forall₂ R (s ++ [a]) (t ++ [b]) := by
  induction h with
  | nil => simpa using List.Forall₂.cons hab List.Forall₂.nil
  | @cons x y l1 l2 hxy htail ih =>
    simpa using List.Forall₂.cons hxy ih

theorem forall2_key_transfer {bs : List IndRow} :
    ∀ {s t : List IndRow}, List.Forall₂ (KeyRel bs) s t →
    ∀ k, (∃ x ∈ s, rowKey x = k) ↔ (∃ y ∈ t, rowKey y = k) := by
  intro s t h
  induction h with
  | nil => intro k; simp
  | @cons a b l1 l2 hab htail ih =>
    intro k
    obtain ⟨hkey, _⟩ := hab
    constructor
    · rintro ⟨x, hx, hk⟩
      rcases List.mem_cons.mp hx with rfl | hx2
      · exact ⟨b, by simp, by rw [← hkey]; exact hk⟩
      · obtain ⟨y, hy, hk2⟩ := (ih k).mp ⟨x, hx2, hk⟩
        exact ⟨y, by simp [hy], hk2⟩
    · rintro ⟨y, hy, hk⟩
      rcases List.mem_cons.mp hy with rfl | hy2
      · exact ⟨a, by simp, by rw [hkey]; exact hk⟩
      · obtain ⟨x, hx, hk2⟩ := (ih k).mpr ⟨y, hy2, hk⟩
        exact ⟨x, by simp [hx], hk2⟩

theorem save_congr_rel : ∀ (bs s t : List IndRow),
    List.Forall₂ (KeyRel bs) s t →
    save_indicators s bs = save_indicators t bs := by
  intro bs
  induction bs with
  | nil =>
    intro s t h
    have h2 : List.Forall₂ (fun x y => x = y) s t := by
      refine List.Forall₂.imp ?_ h
      intro a b hab
      rcases hab.2 with heq | ⟨rr, hrr, _⟩
      · exact heq
      · exact absurd hrr (by simp)
    rw [List.forall₂_eq_eq_eq] at h2
    rw [h2]
  | cons r rest ih =>
    intro s t h
    have hstep : ∀ u : List IndRow, save_indicators u (r :: rest)
        = save_indicators (upsertRow u r) rest := fun u => rfl
    rw [hstep s, hstep t]
    have hiff := forall2_key_transfer h (rowKey r)
    by_cases hp : ∃ x ∈ s, rowKey x = rowKey r
    · have hpt := hiff.mp hp
      rw [upsert_of_present hp, upsert_of_present hpt]
      apply ih
      refine forall2_map_both (updKey r) h ?_
      intro x y hxy
      obtain ⟨hkey, hpay⟩ := hxy
      refine ⟨by rw [rowKey_updKey, rowKey_updKey, hkey], ?_⟩
      rcases hpay with rfl | ⟨rr, hrr, hkk⟩
      · left
        rfl
      · by_cases hxr : rowKey x = rowKey r
        · left
          unfold updKey
          rw [if_pos hxr, if_pos (by rw [← hkey]; exact hxr)]
          exact owr_congr r hkey
        · right
          refine ⟨rr, ?_, by rw [rowKey_updKey]; exact hkk⟩
          rcases List.mem_cons.mp hrr with rfl | hrr2
          · exact absurd hkk.symm hxr
          · exact hrr2
    · have hpt : ¬ ∃ y ∈ t, rowKey y = rowKey r := fun hc => hp (hiff.mpr hc)
      rw [upsert_of_absent hp, upsert_of_absent hpt]
      apply ih
      refine forall2_append_single ?_ ⟨rfl, Or.inl rfl⟩
      refine forall2_imp_mem h ?_
      intro x y hx _ hxy
      obtain ⟨hkey, hpay⟩ := hxy
      refine ⟨hkey, ?_⟩
      rcases hpay with rfl | ⟨rr, hrr, hkk⟩
      · left
        rfl
      · right
        refine ⟨rr, ?_, hkk⟩
        rcases List.mem_cons.mp hrr with rfl | hrr2
        · exact absurd ⟨x, hx, hkk.symm⟩ hp
        · exact hrr2

theorem save_idem : ∀ (b s : List IndRow),
    save_indicators (save_indicators s b) b = save_indicators s b := by
  intro b
  induction b with
  | nil => intro s; rfl
  | cons r bs ih =>
    intro s
    have hstep : ∀ u : List IndRow, save_indicators u (r :: bs)
        = save_indicators (upsertRow u r) bs := fun u => rfl
    rw [hstep s, hstep (save_indicators (upsertRow s r) bs)]
    have hpres : ∃ x ∈ save_indicators (upsertRow s r) bs,
        rowKey x = rowKey r :=
      present_save bs (upsertRow s r) (rowKey r) (present_upsert_self s r)
    rw [upsert_of_present hpres]
    have hrel : List.Forall₂ (KeyRel bs)
        ((save_indicators (upsertRow s r) bs).map (updKey r))
        (save_indicators (upsertRow s r) bs) := by
      apply forall2_map_self
      intro x hx
      refine ⟨rowKey_updKey r x, ?_⟩
      by_cases hxr : rowKey x = rowKey r
      · by_cases hcov : ∃ rr ∈ bs, rowKey rr = rowKey r
        · obtain ⟨rr, hrr, hkrr⟩ := hcov
          right
          exact ⟨rr, hrr, by rw [rowKey_updKey, hxr]; exact hkrr⟩
        · left
          push_neg at hcov
          unfold updKey
          rw [if_pos hxr]
          exact save_key_fixed hcov hx hxr
      · left
        unfold updKey
        rw [if_neg hxr]
    rw [save_congr_rel bs _ _ hrel]
    exact ih (upsertRow s r)

theorem nodup_keys_upsert (s : List IndRow) (r : IndRow)
    (h : (s.map rowKey).Nodup) : ((upsertRow s r).map rowKey).Nodup := by
  by_cases hp : ∃ x ∈ s, rowKey x = rowKey r
  · rw [upsert_of_present hp, List.map_map]
    have h1 : s.map (rowKey ∘ updKey r) = s.map rowKey := by
      apply List.map_congr_left
      intro x _
      simp [Function.comp, rowKey_updKey]
    rw [h1]
    exact h
  · rw [upsert_of_absent hp, List.map_append, List.nodup_append]
    refine ⟨h, by simp, ?_⟩
    intro k hk1 hk2
    have hk3 : k = rowKey r := by simpa using hk2
    obtain ⟨x, hx, hkx⟩ := List.mem_map.mp hk1
    exact hp ⟨x, hx, by rw [hkx, hk3]⟩

theorem nodup_keys_save (b : List IndRow) : ∀ s : List IndRow,
    (s.map rowKey).Nodup → ((save_indicators s b).map rowKey).Nodup := by
  induction b with
  | nil => intro s h; exact h
  | cons r bs ih => intro s h; exact ih _ (nodup_keys_upsert s r h)

/-- C4: upserting the same computed batch twice yields exactly the same
stored rows as upserting it once, and the store keeps at most one logical
row per identity key (symbol, date, indicatorName, period) — including rows
whose period is absent.  The identity key itself is spec-modelled: the
repository carries no table schema, only `ON DUPLICATE KEY UPDATE
value, signal, calculated_at`. -/
theorem upsert_idempotent_C4 (store batch : List IndRow)
    (hkeys : (store.map rowKey).Nodup) :
    ((save_indicators store batch).map rowKey).Nodup ∧
    save_indicators (save_indicators store batch) batch
      = save_indicators store batch :=
  ⟨nodup_keys_save batch store hkeys, save_idem batch store⟩

/-- Witness for C4: a batch with a duplicated `MACD` key (period absent)
and an `RSI` row, upserted into the empty store. -/
theorem upsert_idempotent_C4_witness :
    ((save_indicators []
        [⟨"UBL", 0, "MACD", 1, Sig.BUY, none, 5⟩,
         ⟨"UBL", 0, "RSI", 2, Sig.SELL, some 14, 5⟩,
         ⟨"UBL", 0, "MACD", 3, Sig.NEUTRAL, none, 6⟩]).map rowKey).Nodup ∧
    save_indicators (save_indicators []
        [⟨"UBL", 0, "MACD", 1, Sig.BUY, none, 5⟩,
         ⟨"UBL", 0, "RSI", 2, Sig.SELL, some 14, 5⟩,
         ⟨"UBL", 0, "MACD", 3, Sig.NEUTRAL, none, 6⟩])
        [⟨"UBL", 0, "MACD", 1, Sig.BUY, none, 5⟩,
         ⟨"UBL", 0, "RSI", 2, Sig.SELL, some 14, 5⟩,
         ⟨"UBL", 0, "MACD", 3, Sig.NEUTRAL, none, 6⟩]
      = save_indicators []
        [⟨"UBL", 0, "MACD", 1, Sig.BUY, none, 5⟩,
         ⟨"UBL", 0, "RSI", 2, Sig.SELL, some 14, 5⟩,
         ⟨"UBL", 0, "MACD", 3, Sig.NEUTRAL, none, 6⟩] :=
  upsert_idempotent_C4 _ _ (by simp)

/-! ### The live signal aggregator (claims C2, C10) -/

theorem count_signals_shift (ind : List (String × IndData)) : ∀ b s : ℕ,
    List.foldl (fun bs (nd : String × IndData) =>
      if nd.1 ∈ SIGNAL_INDICATORS then
        match nd.2.signal with
        | Sig.BUY => (bs.1 + 1, bs.2)
        | Sig.SELL => (bs.1, bs.2 + 1)
        | Sig.NEUTRAL => bs
      else bs) (b, s) ind
    = (b + buyVotesClaim ind, s + sellVotesClaim ind) := by
  induction ind with
  | nil => intro b s; simp [buyVotesClaim, sellVotesClaim]
  | cons nd rest ih =>
    intro b s
    rw [List.foldl_cons]
    by_cases hmem : nd.1 ∈ SIGNAL_INDICATORS
    · cases hsig : nd.2.signal with
      | BUY =>
        simp only [if_pos hmem, hsig]
        rw [ih]
        simp only [buyVotesClaim, sellVotesClaim, List.countP_cons, hmem,
          hsig, Prod.mk.injEq]
        constructor <;> (simp; try omega)
      | SELL =>
        simp only [if_pos hmem, hsig]
        rw [ih]
        simp only [buyVotesClaim, sellVotesClaim, List.countP_cons, hmem,
          hsig, Prod.mk.injEq]
        constructor <;> (simp; try omega)
      | NEUTRAL =>
        simp only [if_pos hmem, hsig]
        rw [ih]
        simp only [buyVotesClaim, sellVotesClaim, List.countP_cons, hmem,
          hsig, Prod.mk.injEq]
        constructor <;> simp
    · rw [if_neg hmem, ih]
      simp only [buyVotesClaim, sellVotesClaim, List.countP_cons, hmem,
        Prod.mk.injEq]
      constructor <;> simp

theorem count_signals_eq (ind : List (String × IndData)) :
    count_signals ind = (buyVotesClaim ind, sellVotesClaim ind) := by
  unfold count_signals
  rw [count_signals_shift ind 0 0]
  simp

theorem maValues_eq_amended (ind : List (String × IndData)) :
    (ind.filterMap fun nd =>
      if pyStartsWith nd.1 ("MA_") ∧ nd.2.value ≠ none ∧ nd.2.value ≠ some 0
      then nd.2.value else none) = maValues ind := by
  unfold maValues
  congr 1
  funext nd
  cases hv : nd.2.value with
  | none => simp [hv]
  | some v =>
    by_cases hs : pyStartsWith nd.1 ("MA_") = true
    · by_cases hz : v = 0
      · simp [hv, hs, hz]
      · simp [hv, hs, hz]
    · simp [hv, hs]

/-- C2 counterexample: on a snapshot whose only entry is a moving-average
indicator with stored value 0 (and five equal closes), the code's aggregator
drops the entry (Python truthiness filter `and v["value"]`) and emits no
consensus vote, while the claim's description averages it and adds a BUY
vote: (0,0) versus (1,0). -/
theorem aggregate_votes_ce_C2 :
    aggregate_votes [("MA_5", ⟨some 0, Sig.NEUTRAL⟩)] [1, 1, 1, 1, 1]
      = (0, 0) ∧
    aggregateVotesClaim [("MA_5", ⟨some 0, Sig.NEUTRAL⟩)] [1, 1, 1, 1, 1]
      = (1, 0) ∧
    aggregate_votes [("MA_5", ⟨some 0, Sig.NEUTRAL⟩)] [1, 1, 1, 1, 1]
      ≠ aggregateVotesClaim [("MA_5", ⟨some 0, Sig.NEUTRAL⟩)] [1, 1, 1, 1, 1] := by
  have hsw : pyStartsWith ("MA_5") ("MA_") = true := by decide
  have h1 : aggregate_votes [("MA_5", ⟨some 0, Sig.NEUTRAL⟩)] [1, 1, 1, 1, 1]
      = (0, 0) := by
    norm_num [aggregate_votes, count_signals, maValues, hsw,
      SIGNAL_INDICATORS]
  have hmas : maValuesClaim [("MA_5", ⟨some 0, Sig.NEUTRAL⟩)] = [0] := by
    simp [maValuesClaim, hsw]
  have hbv : buyVotesClaim [("MA_5", ⟨some 0, Sig.NEUTRAL⟩)] = 0 := by
    simp [buyVotesClaim, SIGNAL_INDICATORS]
  have hsv : sellVotesClaim [("MA_5", ⟨some 0, Sig.NEUTRAL⟩)] = 0 := by
    simp [sellVotesClaim, SIGNAL_INDICATORS]
  have h2 : aggregateVotesClaim [("MA_5", ⟨some 0, Sig.NEUTRAL⟩)]
      [1, 1, 1, 1, 1] = (1, 0) := by
    simp only [aggregateVotesClaim, hmas, hbv, hsv]
    norm_num [pyGet]
  exact ⟨h1, h2, by rw [h1, h2]; decide⟩

/-- C2 (amended): the aggregator counts exactly one vote per snapshot entry
in the fixed subset {RSI, Stochastic_K, Williams_R, CCI, ROC, MACD}, from
that entry's own signal field, and adds one moving-average consensus vote
comparing the latest close with the average of the values of the MA-family
entries **whose value is non-null and nonzero** (BUY if the close is
greater, SELL if smaller, none if equal or no such entry). -/
theorem signal_aggregator_C2 (ind : List (String × IndData))
    (close_prices : List ℚ) :
    count_signals ind = (buyVotesClaim ind, sellVotesClaim ind) ∧
    aggregate_votes ind close_prices
      = aggregateVotesAmended ind close_prices := by
  refine ⟨count_signals_eq ind, ?_⟩
  unfold aggregate_votes aggregateVotesAmended
  rw [count_signals_eq ind, maValues_eq_amended ind]

/-! ### Malformed rows in the live pipeline (claim C9) -/

theorem closeFloats_eq_none {rows : List PriceRow}
    (h : ∃ r ∈ rows, r.close_price = none) : closeFloats rows = none := by
  induction rows with
  | nil => simp at h
  | cons r rs ih =>
    obtain ⟨x, hx, hxn⟩ := h
    rcases List.mem_cons.mp hx with rfl | hx2
    · unfold closeFloats
      rw [hxn]
    · unfold closeFloats
      rw [ih ⟨x, hx2, hxn⟩]
      cases hr : r.close_price <;> rfl

theorem process_stock_total (sym : String)
    (ind : List (String × IndData)) {rows : List PriceRow} {closes : List ℚ}
    (h : closeFloats rows = some closes) :
    (process_stock sym rows ind).isSome = true := by
  unfold process_stock
  by_cases hz : rows.length = 0
  · rw [if_pos hz]
    rfl
  · rw [if_neg hz, h]
    rcases hp : estimate_prediction closes (aggregate_votes ind closes).1
      (aggregate_votes ind closes).2 with ⟨p, d, c⟩
    cases p <;> simp [hp]

/-- C9 counterexample: a six-row series whose third row has a non-numeric
close.  The claim predicts the run skips that row and still produces output
(processing the remaining five rows succeeds and emits a prediction), but
the code raises out of the `float()` list comprehension and produces
nothing: the two runs differ. -/
theorem malformed_row_ce_C9 :
    process_stock "S"
      [⟨some 1, some 1, some 1⟩, ⟨some 1, some 1, some 1⟩,
       ⟨none, some 1, some 1⟩, ⟨some 1, some 1, some 1⟩,
       ⟨some 1, some 1, some 1⟩, ⟨some 1, some 1, some 1⟩] [] = none ∧
    process_stock "S"
      (List.filter (fun r => r.close_price.isSome)
        [⟨some 1, some 1, some 1⟩, ⟨some 1, some 1, some 1⟩,
         ⟨none, some 1, some 1⟩, ⟨some 1, some 1, some 1⟩,
         ⟨some 1, some 1, some 1⟩, ⟨some 1, some 1, some 1⟩]) [] ≠ none := by
  constructor
  · have hbad : closeFloats
        [⟨some 1, some 1, some 1⟩, ⟨some 1, some 1, some 1⟩,
         (⟨none, some 1, some 1⟩ : PriceRow), ⟨some 1, some 1, some 1⟩,
         ⟨some 1, some 1, some 1⟩, ⟨some 1, some 1, some 1⟩] = none := by
      apply closeFloats_eq_none
      exact ⟨⟨none, some 1, some 1⟩, by simp, rfl⟩
    simp [process_stock, hbad]
  · have hflt : List.filter (fun r => r.close_price.isSome)
        [(⟨some 1, some 1, some 1⟩ : PriceRow), ⟨some 1, some 1, some 1⟩,
         ⟨none, some 1, some 1⟩, ⟨some 1, some 1, some 1⟩,
         ⟨some 1, some 1, some 1⟩, ⟨some 1, some 1, some 1⟩]
      = [⟨some 1, some 1, some 1⟩, ⟨some 1, some 1, some 1⟩,
         ⟨some 1, some 1, some 1⟩, ⟨some 1, some 1, some 1⟩,
         ⟨some 1, some 1, some 1⟩] := by
      simp [List.filter]
    rw [hflt]
    have hsome : closeFloats
        [(⟨some 1, some 1, some 1⟩ : PriceRow), ⟨some 1, some 1, some 1⟩,
         ⟨some 1, some 1, some 1⟩, ⟨some 1, some 1, some 1⟩,
         ⟨some 1, some 1, some 1⟩] = some [1, 1, 1, 1, 1] := rfl
    have h2 := process_stock_total "S" [] hsome
    intro heq
    rw [heq] at h2
    simp at h2

/-- C9 (amended): a non-numeric price field does not get skipped row-wise —
the unguarded `float()` conversion raises and the whole symbol run aborts
with no output at all; conversely a series with all-numeric closes never
raises.  (Per-row skip-and-log exists only at the CSV import boundary,
outside this pipeline.) -/
theorem malformed_row_C9 (sym : String) (rows : List PriceRow)
    (ind : List (String × IndData)) :
    ((∃ r ∈ rows, r.close_price = none) →
      process_stock sym rows ind = none) ∧
    (∀ closes, closeFloats rows = some closes →
      (process_stock sym rows ind).isSome = true) := by
  constructor
  · intro h
    have hz : rows.length ≠ 0 := by
      obtain ⟨r, hr, _⟩ := h
      intro hlen
      rw [List.length_eq_zero] at hlen
      rw [hlen] at hr
      simp at hr
    unfold process_stock
    rw [if_neg hz, closeFloats_eq_none h]
  · intro closes h
    exact process_stock_total sym ind h

/-- Witness for C9 (amended) on the six-row series with one bad close and
its all-good five-row variant. -/
theorem malformed_row_C9_witness :
    process_stock "S"
      [⟨some 1, some 1, some 1⟩, ⟨some 1, some 1, some 1⟩,
       ⟨none, some 1, some 1⟩, ⟨some 1, some 1, some 1⟩,
       ⟨some 1, some 1, some 1⟩, ⟨some 1, some 1, some 1⟩] [] = none ∧
    (process_stock "S"
      [⟨some 1, some 1, some 1⟩, ⟨some 1, some 1, some 1⟩,
       ⟨some 1, some 1, some 1⟩, ⟨some 1, some 1, some 1⟩,
       ⟨some 1, some 1, some 1⟩] []).isSome = true := by
  constructor
  · exact (malformed_row_C9 "S" _ []).1 ⟨⟨none, some 1, some 1⟩, by simp, rfl⟩
  · exact (malformed_row_C9 "S" _ []).2 [1, 1, 1, 1, 1] rfl

/-! ### Vote-count invariant (claim C10) -/

theorem votes_le_filter (l : List (String × IndData)) :
    buyVotesClaim l + sellVotesClaim l
      ≤ (l.filter fun nd => decide (nd.1 ∈ SIGNAL_INDICATORS)).length := by
  induction l with
  | nil => simp [buyVotesClaim, sellVotesClaim]
  | cons nd rest ih =>
    by_cases hmem : nd.1 ∈ SIGNAL_INDICATORS
    · cases hsig : nd.2.signal <;>
        simp [buyVotesClaim, sellVotesClaim, List.countP_cons, hmem, hsig,
          List.filter_cons] at ih ⊢ <;> omega
    · simp [buyVotesClaim, sellVotesClaim, List.countP_cons, hmem,
        List.filter_cons] at ih ⊢
      omega

theorem filter_sig_le_six (l : List (String × IndData))
    (h : (l.map Prod.fst).Nodup) :
    (l.filter fun nd => decide (nd.1 ∈ SIGNAL_INDICATORS)).length ≤ 6 := by
  have hsub : (l.filter fun nd => decide (nd.1 ∈ SIGNAL_INDICATORS)).Sublist l :=
    List.filter_sublist l
  have hnd : ((l.filter fun nd =>
      decide (nd.1 ∈ SIGNAL_INDICATORS)).map Prod.fst).Nodup :=
    List.Sublist.nodup (List.Sublist.map Prod.fst hsub) h
  have hlen : (l.filter fun nd => decide (nd.1 ∈ SIGNAL_INDICATORS)).length
      = ((l.filter fun nd =>
          decide (nd.1 ∈ SIGNAL_INDICATORS)).map Prod.fst).length := by
    simp
  rw [hlen, ← List.toFinset_card_of_nodup hnd]
  have hsub2 : ((l.filter fun nd =>
      decide (nd.1 ∈ SIGNAL_INDICATORS)).map Prod.fst).toFinset
      ⊆ SIGNAL_INDICATORS.toFinset := by
    intro x hx
    rw [List.mem_toFinset] at hx ⊢
    obtain ⟨ndx, hndx, rfl⟩ := List.mem_map.mp hx
    have := (List.mem_filter.mp hndx).2
    simpa using this
  have hcard := Finset.card_le_card hsub2
  have hsix : SIGNAL_INDICATORS.toFinset.card = 6 := by decide
  omega

theorem aggregate_votes_le_seven (ind : List (String × IndData))
    (closes : List ℚ) (hnd : (ind.map Prod.fst).Nodup) :
    (aggregate_votes ind closes).1 + (aggregate_votes ind closes).2 ≤ 7 := by
  have hsix : buyVotesClaim ind + sellVotesClaim ind ≤ 6 :=
    le_trans (votes_le_filter ind) (filter_sig_le_six ind hnd)
  unfold aggregate_votes
  rw [count_signals_eq ind]
  by_cases hmas : maValues ind ≠ []
  · rw [if_pos hmas]
    by_cases hgt : (maValues ind).sum / ((maValues ind).length : ℚ)
        < pyGet closes 0
    · rw [if_pos hgt]
      simpa using by omega
    · rw [if_neg hgt]
      by_cases hlt : pyGet closes 0
          < (maValues ind).sum / ((maValues ind).length : ℚ)
      · rw [if_pos hlt]
        simpa using by omega
      · rw [if_neg hlt]
        simpa using by omega
  · rw [if_neg hmas]
    simpa using by omega

theorem conf_window {b s : ℕ} (hbs : s < b) (ht : b + s ≤ 7) :
    50 < roundTo 2 ((b : ℚ) / (((b : ℕ) + s : ℕ) : ℚ) * 100) ∧
    roundTo 2 ((b : ℚ) / (((b : ℕ) + s : ℕ) : ℚ) * 100) ≤ 100 := by
  have hb1 : 1 ≤ b := by omega
  have htq1 : (1 : ℚ) ≤ ((b + s : ℕ) : ℚ) := by exact_mod_cast by omega
  have htq7 : ((b + s : ℕ) : ℚ) ≤ 7 := by exact_mod_cast ht
  have htq0 : (0 : ℚ) < ((b + s : ℕ) : ℚ) := by linarith
  have hbq : ((b + s : ℕ) : ℚ) + 1 ≤ 2 * (b : ℚ) := by
    have hsb : s + 1 ≤ b := hbs
    push_cast
    exact_mod_cast by omega
  have hble : (b : ℚ) ≤ ((b + s : ℕ) : ℚ) := by
    push_cast
    have : (0 : ℚ) ≤ (s : ℚ) := by positivity
    linarith
  have hc : ((b : ℚ) / ((b + s : ℕ) : ℚ) * 100) * ((b + s : ℕ) : ℚ)
      = 100 * (b : ℚ) := by
    field_simp
    ring
  have hlow : 50 + 50 / 7 ≤ (b : ℚ) / ((b + s : ℕ) : ℚ) * 100 := by
    rw [div_mul_eq_mul_div, le_div_iff₀ htq0]
    nlinarith [htq1, htq7, hbq]
  have hhigh : (b : ℚ) / ((b + s : ℕ) : ℚ) * 100 ≤ 100 := by
    rw [div_mul_eq_mul_div, div_le_iff₀ htq0]
    nlinarith [hble]
  have habs := abs_roundTo_sub 2 ((b : ℚ) / ((b + s : ℕ) : ℚ) * 100)
  have habs2 : |roundTo 2 ((b : ℚ) / ((b + s : ℕ) : ℚ) * 100)
      - (b : ℚ) / ((b + s : ℕ) : ℚ) * 100| ≤ 1 / 200 := by
    have : (1 : ℚ) / (2 * 10 ^ 2) = 1 / 200 := by norm_num
    rw [← this]
    exact habs
  rcases abs_le.mp habs2 with ⟨hlo, _⟩
  constructor
  · have h57 : (50 : ℚ) / 7 > 1 / 200 := by norm_num
    linarith
  · have := roundTo_mono 2 hhigh
    rwa [roundTo_hundred] at this

theorem confidence_cases (closes : List ℚ) (b s : ℕ) (ht : b + s ≤ 7) :
    (estimate_prediction closes b s).2.2 = 0 ∨
    (50 < (estimate_prediction closes b s).2.2 ∧
      (estimate_prediction closes b s).2.2 ≤ 100) := by
  unfold estimate_prediction
  by_cases h5 : closes.length < 5
  · rw [if_pos h5]
    left
    rfl
  · rw [if_neg h5]
    by_cases h0 : b + s = 0
    · left
      simp only [h0, if_pos]
    · by_cases hbs : s < b
      · right
        have hw := conf_window hbs ht
        simp only [if_neg h0, if_pos hbs]
        exact hw
      · by_cases hsb : b < s
        · right
          have hw := conf_window hsb (by omega : s + b ≤ 7)
          simp only [if_neg h0, if_neg hbs, if_pos hsb]
          have hcomm : ((b + s : ℕ) : ℚ) = ((s + b : ℕ) : ℚ) := by
            push_cast
            ring
          rw [hcomm]
          exact hw
        · left
          simp only [if_neg h0, if_neg hbs, if_neg hsb]
          have : roundTo 2 (0 : ℚ) = 0 := roundTo_zero 2
          simpa using this

/-- C10: with a dict-shaped snapshot (distinct indicator names) the
aggregated votes satisfy buyVotes + sellVotes ≤ 7 (one vote at most from
each of the six fixed signal indicators plus at most one moving-average
consensus vote; both counts are naturals, hence nonnegative), and the
heuristic's emitted confidence is either 0 or lies in (50, 100]. -/
theorem votes_invariant_C10 (ind : List (String × IndData))
    (closes : List ℚ) (hnd : (ind.map Prod.fst).Nodup) :
    (aggregate_votes ind closes).1 + (aggregate_votes ind closes).2 ≤ 7 ∧
    ((estimate_prediction closes (aggregate_votes ind closes).1
        (aggregate_votes ind closes).2).2.2 = 0 ∨
      (50 < (estimate_prediction closes (aggregate_votes ind closes).1
          (aggregate_votes ind closes).2).2.2 ∧
        (estimate_prediction closes (aggregate_votes ind closes).1
          (aggregate_votes ind closes).2).2.2 ≤ 100)) := by
  have h7 := aggregate_votes_le_seven ind closes hnd
  exact ⟨h7, confidence_cases closes _ _ h7⟩

/-- Witness for C10 on a two-entry snapshot voting BUY twice. -/
theorem votes_invariant_C10_witness :
    (aggregate_votes [("RSI", ⟨some 1, Sig.BUY⟩), ("MACD", ⟨some 1, Sig.BUY⟩)]
        [1, 2, 3, 4, 5]).1
      + (aggregate_votes [("RSI", ⟨some 1, Sig.BUY⟩),
          ("MACD", ⟨some 1, Sig.BUY⟩)] [1, 2, 3, 4, 5]).2 ≤ 7 ∧
    ((estimate_prediction [1, 2, 3, 4, 5]
        (aggregate_votes [("RSI", ⟨some 1, Sig.BUY⟩),
          ("MACD", ⟨some 1, Sig.BUY⟩)] [1, 2, 3, 4, 5]).1
        (aggregate_votes [("RSI", ⟨some 1, Sig.BUY⟩),
          ("MACD", ⟨some 1, Sig.BUY⟩)] [1, 2, 3, 4, 5]).2).2.2 = 0 ∨
      (50 < (estimate_prediction [1, 2, 3, 4, 5]
          (aggregate_votes [("RSI", ⟨some 1, Sig.BUY⟩),
            ("MACD", ⟨some 1, Sig.BUY⟩)] [1, 2, 3, 4, 5]).1
          (aggregate_votes [("RSI", ⟨some 1, Sig.BUY⟩),
            ("MACD", ⟨some 1, Sig.BUY⟩)] [1, 2, 3, 4, 5]).2).2.2 ∧
        (estimate_prediction [1, 2, 3, 4, 5]
          (aggregate_votes [("RSI", ⟨some 1, Sig.BUY⟩),
            ("MACD", ⟨some 1, Sig.BUY⟩)] [1, 2, 3, 4, 5]).1
          (aggregate_votes [("RSI", ⟨some 1, Sig.BUY⟩),
            ("MACD", ⟨some 1, Sig.BUY⟩)] [1, 2, 3, 4, 5]).2).2.2 ≤ 100)) :=
  votes_invariant_C10 [("RSI", ⟨some 1, Sig.BUY⟩), ("MACD", ⟨some 1, Sig.BUY⟩)]
    [1, 2, 3, 4, 5] (by decide)

/-! ### The prediction heuristic (claim C1) -/

theorem closeFloats_length {rows : List PriceRow} {closes : List ℚ}
    (h : closeFloats rows = some closes) : closes.length = rows.length := by
  induction rows generalizing closes with
  | nil =>
    unfold closeFloats at h
    cases h
    rfl
  | cons r rs ih =>
    unfold closeFloats at h
    cases hr : r.close_price with
    | none => rw [hr] at h; cases h
    | some c =>
      rw [hr] at h
      cases hrs : closeFloats rs with
      | none => rw [hrs] at h; cases h
      | some cs =>
        rw [hrs] at h
        cases h
        simp [ih hrs]

theorem estimate_some (closes : List ℚ) (b s : ℕ)
    (h5 : ¬ closes.length < 5) :
    ∃ q d c, estimate_prediction closes b s = (some q, d, c) := by
  unfold estimate_prediction
  rw [if_neg h5]
  by_cases h0 : b + s = 0
  · simp only [h0, if_pos]
    exact ⟨_, _, _, rfl⟩
  · by_cases hbs : s < b
    · simp only [if_neg h0, if_pos hbs]
      exact ⟨_, _, _, rfl⟩
    · by_cases hsb : b < s
      · simp only [if_neg h0, if_neg hbs, if_pos hsb]
        exact ⟨_, _, _, rfl⟩
      · simp only [if_neg h0, if_neg hbs, if_neg hsb]
        exact ⟨_, _, _, rfl⟩

/-- C1: the prediction heuristic.  With fewer than 5 closes no record is
emitted; with at least 5 closes exactly one record is emitted, computed by
the claim's case split: no votes → NEUTRAL/0/current close (unrounded);
buy majority → BUY with confidence buy/total·100 and predicted
current + avgMove·confidence/100; sell majority symmetric with minus; tie →
NEUTRAL/0/current close.  avgMove is the mean absolute day-over-day change
over the last min(14, N−1) observations; stored predicted/confidence carry
the 4- and 2-decimal rounding the record contract specifies. -/
theorem prediction_heuristic_C1 (closes : List ℚ) (b s : ℕ) (sym : String)
    (rows : List PriceRow) (ind : List (String × IndData))
    (hclose : closeFloats rows = some closes) :
    (closes.length < 5 →
      estimate_prediction closes b s = (none, Sig.NEUTRAL, 0) ∧
      process_stock sym rows ind = some []) ∧
    (5 ≤ closes.length →
      (b + s = 0 →
        estimate_prediction closes b s
          = (some (pyGet closes 0), Sig.NEUTRAL, 0)) ∧
      (s < b →
        estimate_prediction closes b s
          = (some (roundTo 4 (pyGet closes 0 + avgMoveOf closes
              * ((b : ℚ) / ((b + s : ℕ) : ℚ) * 100 / 100))), Sig.BUY,
             roundTo 2 ((b : ℚ) / ((b + s : ℕ) : ℚ) * 100))) ∧
      (b < s →
        estimate_prediction closes b s
          = (some (roundTo 4 (pyGet closes 0 - avgMoveOf closes
              * ((s : ℚ) / ((b + s : ℕ) : ℚ) * 100 / 100))), Sig.SELL,
             roundTo 2 ((s : ℚ) / ((b + s : ℕ) : ℚ) * 100))) ∧
      (b = s → 0 < b →
        estimate_prediction closes b s
          = (some (roundTo 4 (pyGet closes 0)), Sig.NEUTRAL, 0)) ∧
      ∃ rec : PredictionRecord, process_stock sym rows ind = some [rec]) := by
  constructor
  · intro h5
    constructor
    · unfold estimate_prediction
      rw [if_pos h5]
    · unfold process_stock
      by_cases hz : rows.length = 0
      · rw [if_pos hz]
      · rw [if_neg hz, hclose]
        have h5v : closes.length < 5 := h5
        have hnone : estimate_prediction closes
            (aggregate_votes ind closes).1 (aggregate_votes ind closes).2
            = (none, Sig.NEUTRAL, 0) := by
          unfold estimate_prediction
          rw [if_pos h5v]
        simp only [hnone]
  · intro h5
    have h5n : ¬ closes.length < 5 := by omega
    refine ⟨?_, ?_, ?_, ?_, ?_⟩
    · intro h0
      unfold estimate_prediction
      rw [if_neg h5n]
      simp only [h0, if_pos]
    · intro hbs
      have h0 : ¬ b + s = 0 := by omega
      unfold estimate_prediction
      rw [if_neg h5n]
      simp only [if_neg h0, if_pos hbs]
    · intro hsb
      have h0 : ¬ b + s = 0 := by omega
      have hbs : ¬ s < b := by omega
      unfold estimate_prediction
      rw [if_neg h5n]
      simp only [if_neg h0, if_neg hbs, if_pos hsb]
    · intro hbe hb0
      have h0 : ¬ b + s = 0 := by omega
      have hbs : ¬ s < b := by omega
      have hsb : ¬ b < s := by omega
      unfold estimate_prediction
      rw [if_neg h5n]
      simp only [if_neg h0, if_neg hbs, if_neg hsb]
      rw [roundTo_zero]
    · have hz : rows.length ≠ 0 := by
        have := closeFloats_length hclose
        omega
      unfold process_stock
      rw [if_neg hz, hclose]
      obtain ⟨q, d, c, heq⟩ := estimate_some closes
        (aggregate_votes ind closes).1 (aggregate_votes ind closes).2 h5n
      simp only [heq]
      exact ⟨_, rfl⟩

/-- Witness for C1: five unit closes, one BUY vote, no snapshot — the BUY
case fires and exactly one record is emitted. -/
theorem prediction_heuristic_C1_witness :
    estimate_prediction [1, 2, 3, 4, 5] 1 0
      = (some (roundTo 4 (pyGet [1, 2, 3, 4, 5] 0
          + avgMoveOf [1, 2, 3, 4, 5]
            * ((1 : ℚ) / ((1 + 0 : ℕ) : ℚ) * 100 / 100))), Sig.BUY,
         roundTo 2 ((1 : ℚ) / ((1 + 0 : ℕ) : ℚ) * 100)) ∧
    ∃ rec : PredictionRecord, process_stock "S"
      [⟨some 1, some 1, some 1⟩, ⟨some 2, some 2, some 2⟩,
       ⟨some 3, some 3, some 3⟩, ⟨some 4, some 4, some 4⟩,
       ⟨some 5, some 5, some 5⟩] [] = some [rec] := by
  have h := prediction_heuristic_C1 [1, 2, 3, 4, 5] 1 0 "S"
    [⟨some 1, some 1, some 1⟩, ⟨some 2, some 2, some 2⟩,
     ⟨some 3, some 3, some 3⟩, ⟨some 4, some 4, some 4⟩,
     ⟨some 5, some 5, some 5⟩] [] rfl
  exact ⟨(h.2 (by decide)).2.1 (by decide), (h.2 (by decide)).2.2.2.2⟩
